import Mathlib

/-!
Verification of the sqlbench core (felixge/sqlbench) against its
natural-language specification.

The Go source is shallowly embedded: float64 values are modelled as exact
rationals (ℚ), time.Duration (an int64 count of nanoseconds) as ℤ, and
fallible Go functions as Except/Option.  Database and file I/O are external
collaborators: a measurement invocation is modelled by consuming the next
outcome from an oracle trace, and the CSV file by the list of records
exchanged with encoding/csv.
-/

namespace Sqlbench

attribute [local semireducible] Rat.add Rat.mul Rat.inv Rat.sub

/-! ### Decimal text codec

Models Go's fmt.Sprintf("%d", ...) / Sprintf("%f", ...) on one side and
strconv.ParseInt / strconv.ParseFloat (restricted to plain decimal forms,
which is all the codec ever produces) on the other. -/

/-- The character for a single decimal digit `d < 10`. -/
def digitChar (d : ℕ) : Char := Char.ofNat (48 + d)

/-- Is `c` an ASCII decimal digit? -/
def isDigitCh (c : Char) : Bool := 48 ≤ c.toNat && c.toNat ≤ 57

/-- Numeric value of an ASCII digit character. -/
def charVal (c : Char) : ℕ := c.toNat - 48

/-- Little-endian decimal digits of `n`, with explicit fuel so that the
recursion is structural (fuel `≥ n` is always enough). -/
def natDigitsRev : ℕ → ℕ → List ℕ
  | 0, _ => []
  | fuel + 1, n => if n = 0 then [] else n % 10 :: natDigitsRev fuel (n / 10)

/-- Value of a little-endian digit list. -/
def digitsVal (ds : List ℕ) : ℕ := ds.foldr (fun d acc => d + 10 * acc) 0

/-- Decimal character rendering of a natural number (Go `%d` on `n ≥ 0`). -/
def natToChars (n : ℕ) : List Char :=
  if n = 0 then ['0'] else ((natDigitsRev n n).reverse.map digitChar)

/-- Big-endian accumulation of digit characters. -/
def charsValAux (acc : ℕ) : List Char → ℕ
  | [] => acc
  | c :: cs => charsValAux (acc * 10 + charVal c) cs

/-- Parse a non-empty all-digit character list (no sign). -/
def parseNatChars (cs : List Char) : Option ℕ :=
  if cs.isEmpty then none
  else if cs.all isDigitCh then some (charsValAux 0 cs) else none

theorem digitsVal_natDigitsRev (fuel : ℕ) :
    ∀ n : ℕ, n ≤ fuel → digitsVal (natDigitsRev fuel n) = n := by
  induction fuel with
  | zero => intro n hn; interval_cases n; rfl
  | succ f ih =>
    intro n hn
    by_cases h0 : n = 0
    · subst h0; rfl
    · have hdiv : n / 10 ≤ f := by
        have : n / 10 < n := Nat.div_lt_self (Nat.pos_of_ne_zero h0) (by omega)
        omega
      simp only [natDigitsRev, h0, if_false, digitsVal, List.foldr]
      have := ih (n / 10) hdiv
      simp only [digitsVal] at this
      rw [this]
      omega

theorem mem_natDigitsRev_lt (fuel : ℕ) :
    ∀ n d : ℕ, d ∈ natDigitsRev fuel n → d < 10 := by
  induction fuel with
  | zero => intro n d hd; simp [natDigitsRev] at hd
  | succ f ih =>
    intro n d hd
    by_cases h0 : n = 0
    · subst h0; simp [natDigitsRev] at hd
    · simp only [natDigitsRev, h0, if_false, List.mem_cons] at hd
      rcases hd with h | h
      · subst h; exact Nat.mod_lt _ (by omega)
      · exact ih _ _ h

theorem charVal_digitChar {d : ℕ} (hd : d < 10) : charVal (digitChar d) = d := by
  interval_cases d <;> decide

theorem isDigitCh_digitChar {d : ℕ} (hd : d < 10) : isDigitCh (digitChar d) = true := by
  interval_cases d <;> decide

theorem digitChar_ne_dot {d : ℕ} (hd : d < 10) : digitChar d ≠ '.' := by
  interval_cases d <;> decide

theorem charsValAux_append (a : ℕ) (cs ds : List Char) :
    charsValAux a (cs ++ ds) = charsValAux (charsValAux a cs) ds := by
  induction cs generalizing a with
  | nil => rfl
  | cons c cs ih => exact ih (a * 10 + charVal c)

theorem charsValAux_rev_digits (ds : List ℕ) (h : ∀ d ∈ ds, d < 10) :
    charsValAux 0 (ds.reverse.map digitChar) = digitsVal ds := by
  induction ds with
  | nil => rfl
  | cons d t ih =>
    have hd : d < 10 := h d (by simp)
    have ht : ∀ x ∈ t, x < 10 := fun x hx => h x (by simp [hx])
    calc charsValAux 0 ((d :: t).reverse.map digitChar)
        = charsValAux 0 (t.reverse.map digitChar ++ [digitChar d]) := by
          rw [List.reverse_cons, List.map_append, List.map_cons, List.map_nil]
      _ = charsValAux (charsValAux 0 (t.reverse.map digitChar)) [digitChar d] :=
          charsValAux_append _ _ _
      _ = charsValAux (digitsVal t) [digitChar d] := by rw [ih ht]
      _ = digitsVal t * 10 + d := by
          show digitsVal t * 10 + charVal (digitChar d) = _
          rw [charVal_digitChar hd]
      _ = digitsVal (d :: t) := by
          show _ = d + 10 * digitsVal t
          omega

theorem natToChars_ne_nil (n : ℕ) : natToChars n ≠ [] := by
  by_cases h0 : n = 0
  · subst h0; simp [natToChars]
  · simp only [natToChars, h0, if_false]
    have h1 : 1 ≤ n := Nat.pos_of_ne_zero h0
    cases hn : natDigitsRev n n with
    | nil =>
      exfalso
      have := digitsVal_natDigitsRev n n le_rfl
      rw [hn] at this
      simp [digitsVal] at this
      omega
    | cons d t => simp

theorem natToChars_all_digits (n : ℕ) : (natToChars n).all isDigitCh = true := by
  by_cases h0 : n = 0
  · subst h0; decide
  · simp only [natToChars, h0, if_false, List.all_eq_true]
    intro c hc
    simp only [List.mem_map, List.mem_reverse] at hc
    obtain ⟨d, hd, rfl⟩ := hc
    exact isDigitCh_digitChar (mem_natDigitsRev_lt n n d hd)

theorem charsVal_natToChars (n : ℕ) : charsValAux 0 (natToChars n) = n := by
  by_cases h0 : n = 0
  · subst h0; decide
  · simp only [natToChars, h0, if_false]
    rw [charsValAux_rev_digits _ (mem_natDigitsRev_lt n n)]
    exact digitsVal_natDigitsRev n n le_rfl

theorem parseNatChars_natToChars (n : ℕ) : parseNatChars (natToChars n) = some n := by
  simp only [parseNatChars, List.isEmpty_iff]
  rw [if_neg (natToChars_ne_nil n), if_pos (natToChars_all_digits n),
    charsVal_natToChars]

/-- Go `fmt.Sprintf("%d", i)` on an int64 value. -/
def intToChars (i : ℤ) : List Char :=
  if i < 0 then '-' :: natToChars (-i).toNat else natToChars i.toNat

/-- Go `strconv.ParseInt(s, 10, 64)` on decimal text (int64 overflow is not
modelled; sqlbench only parses values it previously formatted). -/
def parseIntChars : List Char → Option ℤ
  | [] => none
  | c :: rest =>
    if c = '-' then (parseNatChars rest).map (fun n => -Int.ofNat n)
    else if c = '+' then (parseNatChars rest).map Int.ofNat
    else (parseNatChars (c :: rest)).map Int.ofNat

theorem isDigitCh_ne_signs {c : Char} (h : isDigitCh c = true) :
    c ≠ '-' ∧ c ≠ '+' ∧ c ≠ '.' := by
  refine ⟨?_, ?_, ?_⟩ <;> rintro rfl <;> simp [isDigitCh] at h

theorem natToChars_head_digit (n : ℕ) :
    ∃ c cs, natToChars n = c :: cs ∧ isDigitCh c = true := by
  cases hn : natToChars n with
  | nil => exact absurd hn (natToChars_ne_nil n)
  | cons c cs =>
    refine ⟨c, cs, rfl, ?_⟩
    have := natToChars_all_digits n
    rw [hn, List.all_cons, Bool.and_eq_true] at this
    exact this.1

theorem parseIntChars_cons (c : Char) (rest : List Char) :
    parseIntChars (c :: rest) =
      if c = '-' then (parseNatChars rest).map (fun n => -Int.ofNat n)
      else if c = '+' then (parseNatChars rest).map Int.ofNat
      else (parseNatChars (c :: rest)).map Int.ofNat := rfl

theorem parseIntChars_intToChars (i : ℤ) : parseIntChars (intToChars i) = some i := by
  by_cases hneg : i < 0
  · have h1 : intToChars i = '-' :: natToChars (-i).toNat := by
      rw [intToChars, if_pos hneg]
    rw [h1, parseIntChars_cons, if_pos rfl, parseNatChars_natToChars,
      Option.map_some']
    congr 1
    simp only [Int.ofNat_eq_coe]
    omega
  · have h1 : intToChars i = natToChars i.toNat := by
      rw [intToChars, if_neg hneg]
    obtain ⟨c, cs, hcs, hdig⟩ := natToChars_head_digit i.toNat
    obtain ⟨hm, hp, _⟩ := isDigitCh_ne_signs hdig
    rw [h1, hcs, parseIntChars_cons, if_neg hm, if_neg hp, ← hcs,
      parseNatChars_natToChars, Option.map_some']
    congr 1
    simp only [Int.ofNat_eq_coe]
    omega

/-- Left-pad with ASCII zeros to length `k`. -/
def padZeros (k : ℕ) (cs : List Char) : List Char :=
  List.replicate (k - cs.length) '0' ++ cs

/-- Go `fmt.Sprintf("%f", q)` for `0 ≤ q`: the decimal rendering of `q`
rounded to six fractional digits.  A float64 is a dyadic rational, so it
never lies exactly on a six-decimal tie; the rounding direction chosen for
ties is therefore immaterial to the model. -/
def ratToCharsNN (q : ℚ) : List Char :=
  natToChars ((round (q * 1000000)).toNat / 1000000) ++
    '.' :: padZeros 6 (natToChars ((round (q * 1000000)).toNat % 1000000))

/-- Go `fmt.Sprintf("%f", q)`: sign, then the rendering of the magnitude. -/
def ratToChars (q : ℚ) : List Char :=
  if q < 0 then '-' :: ratToCharsNN (-q) else ratToCharsNN q

/-- Go `strconv.ParseFloat` on an unsigned plain decimal (`digits`,
`digits.digits`, `.digits` or `digits.`); exponent and special forms are
never produced by the codec and are not modelled. -/
def parseDecNN (cs : List Char) : Option ℚ :=
  match cs.dropWhile (fun c => c ≠ '.') with
  | [] =>
    (parseNatChars (cs.takeWhile (fun c => c ≠ '.'))).map (fun (n : ℕ) => (n : ℚ))
  | _ :: frac =>
    let ip := cs.takeWhile (fun c => c ≠ '.')
    if (ip.isEmpty && frac.isEmpty) || !(ip.all isDigitCh && frac.all isDigitCh)
    then none
    else some ((charsValAux 0 ip : ℚ) + (charsValAux 0 frac : ℚ) / 10 ^ frac.length)

/-- Go `strconv.ParseFloat` with optional sign. -/
def parseDecChars : List Char → Option ℚ
  | [] => none
  | c :: rest =>
    if c = '-' then (parseDecNN rest).map Neg.neg
    else if c = '+' then parseDecNN rest
    else parseDecNN (c :: rest)

theorem charsValAux_replicate_zero (k : ℕ) :
    charsValAux 0 (List.replicate k '0') = 0 := by
  induction k with
  | zero => rfl
  | succ m ih => exact ih

theorem charsVal_padZeros (k : ℕ) (cs : List Char) :
    charsValAux 0 (padZeros k cs) = charsValAux 0 cs := by
  rw [padZeros, charsValAux_append, charsValAux_replicate_zero]

theorem padZeros_all_digits (k : ℕ) (cs : List Char)
    (h : cs.all isDigitCh = true) : (padZeros k cs).all isDigitCh = true := by
  rw [padZeros, List.all_append, h]
  have : (List.replicate (k - cs.length) '0').all isDigitCh = true := by
    simp only [List.all_eq_true]
    intro c hc
    rw [List.eq_of_mem_replicate hc]
    decide
  rw [this]
  rfl

theorem padZeros_length (k : ℕ) (cs : List Char) (h : cs.length ≤ k) :
    (padZeros k cs).length = k := by
  rw [padZeros, List.length_append, List.length_replicate]
  omega

theorem natDigitsRev_length_le (fuel : ℕ) :
    ∀ n k : ℕ, n ≤ fuel → n < 10 ^ k → (natDigitsRev fuel n).length ≤ k := by
  induction fuel with
  | zero =>
    intro n k hn _
    interval_cases n
    simp [natDigitsRev]
  | succ f ih =>
    intro n k hn hk
    by_cases h0 : n = 0
    · subst h0; simp [natDigitsRev]
    · have hk1 : 1 ≤ k := by
        by_contra hc
        interval_cases k
        simp at hk
        omega
      simp only [natDigitsRev, h0, if_false, List.length_cons]
      have hdivf : n / 10 ≤ f := by
        have : n / 10 < n := Nat.div_lt_self (Nat.pos_of_ne_zero h0) (by omega)
        omega
      have hdivk : n / 10 < 10 ^ (k - 1) := by
        rw [Nat.div_lt_iff_lt_mul (by omega)]
        calc n < 10 ^ k := hk
          _ = 10 ^ (k - 1) * 10 := by
            rw [← pow_succ]
            congr 1
            omega
      have := ih (n / 10) (k - 1) hdivf hdivk
      omega

theorem natToChars_length_le (n k : ℕ) (hn : n < 10 ^ k) (hk : 1 ≤ k) :
    (natToChars n).length ≤ k := by
  by_cases h0 : n = 0
  · subst h0; simpa [natToChars] using hk
  · simp only [natToChars, h0, if_false, List.length_map, List.length_reverse]
    exact natDigitsRev_length_le n n k le_rfl hn

theorem takeWhile_append_dot (xs ys : List Char) (h : ∀ c ∈ xs, c ≠ '.') :
    (xs ++ '.' :: ys).takeWhile (fun c => c ≠ '.') = xs := by
  induction xs with
  | nil => simp
  | cons x xs ih =>
    have hx : x ≠ '.' := h x (by simp)
    have hxs : ∀ c ∈ xs, c ≠ '.' := fun c hc => h c (by simp [hc])
    simp only [List.cons_append]
    rw [List.takeWhile_cons_of_pos (by simpa using hx), ih hxs]

theorem dropWhile_append_dot (xs ys : List Char) (h : ∀ c ∈ xs, c ≠ '.') :
    (xs ++ '.' :: ys).dropWhile (fun c => c ≠ '.') = '.' :: ys := by
  induction xs with
  | nil => simp
  | cons x xs ih =>
    have hx : x ≠ '.' := h x (by simp)
    have hxs : ∀ c ∈ xs, c ≠ '.' := fun c hc => h c (by simp [hc])
    simp only [List.cons_append]
    rw [List.dropWhile_cons_of_pos (by simpa using hx), ih hxs]

theorem natToChars_no_dot (n : ℕ) : ∀ c ∈ natToChars n, c ≠ '.' := by
  intro c hc
  have hall := natToChars_all_digits n
  rw [List.all_eq_true] at hall
  exact (isDigitCh_ne_signs (hall c hc)).2.2

theorem parseDecNN_frac (cs : List Char) (x : Char) (frac : List Char)
    (h : cs.dropWhile (fun c => c ≠ '.') = x :: frac) :
    parseDecNN cs =
      if ((cs.takeWhile (fun c => c ≠ '.')).isEmpty && frac.isEmpty)
          || !((cs.takeWhile (fun c => c ≠ '.')).all isDigitCh
              && frac.all isDigitCh)
      then none
      else some ((charsValAux 0 (cs.takeWhile (fun c => c ≠ '.')) : ℚ) +
        (charsValAux 0 frac : ℚ) / 10 ^ frac.length) := by
  unfold parseDecNN
  rw [h]

/-- The value recovered by parsing a `%f` rendering of `0 ≤ q`: `q` rounded
to the nearest multiple of `10⁻⁶`. -/
def round6 (q : ℚ) : ℚ := ((round (q * 1000000) : ℤ) : ℚ) / 1000000

/-- The value recovered by parsing a `%f` rendering of any `q`. -/
def fmtRound6 (q : ℚ) : ℚ := if q < 0 then -round6 (-q) else round6 q

theorem round_nonneg_of_nonneg {q : ℚ} (hq : 0 ≤ q) : 0 ≤ round q := by
  rw [round_eq]
  exact Int.le_floor.mpr (by push_cast; linarith)

theorem parseDecNN_ratToCharsNN (q : ℚ) (hq : 0 ≤ q) :
    parseDecNN (ratToCharsNN q) = some (round6 q) := by
  have hrnn : 0 ≤ round (q * 1000000) :=
    round_nonneg_of_nonneg (by positivity)
  have hcast : ((round (q * 1000000)).toNat : ℚ) = ((round (q * 1000000) : ℤ) : ℚ) := by
    have := Int.toNat_of_nonneg hrnn
    exact_mod_cast congrArg (fun z : ℤ => (z : ℚ)) this
  have hfraclen : (padZeros 6 (natToChars ((round (q * 1000000)).toNat % 1000000))).length = 6 := by
    apply padZeros_length
    apply natToChars_length_le _ 6 _ (by omega)
    have : (round (q * 1000000)).toNat % 1000000 < 1000000 :=
      Nat.mod_lt _ (by omega)
    calc (round (q * 1000000)).toNat % 1000000 < 1000000 := this
      _ ≤ 10 ^ 6 := by norm_num
  have hdrop : (ratToCharsNN q).dropWhile (fun c => c ≠ '.') =
      '.' :: padZeros 6 (natToChars ((round (q * 1000000)).toNat % 1000000)) := by
    rw [ratToCharsNN]
    exact dropWhile_append_dot _ _ (natToChars_no_dot _)
  have htake : (ratToCharsNN q).takeWhile (fun c => c ≠ '.') =
      natToChars ((round (q * 1000000)).toNat / 1000000) := by
    rw [ratToCharsNN]
    exact takeWhile_append_dot _ _ (natToChars_no_dot _)
  rw [parseDecNN_frac _ _ _ hdrop, htake]
  have hcond1 : (natToChars ((round (q * 1000000)).toNat / 1000000)).isEmpty = false := by
    rw [List.isEmpty_eq_false_iff_exists_mem]
    obtain ⟨c, cs, hcs, _⟩ := natToChars_head_digit ((round (q * 1000000)).toNat / 1000000)
    exact ⟨c, by rw [hcs]; simp⟩
  have hcond2 := natToChars_all_digits ((round (q * 1000000)).toNat / 1000000)
  have hcond3 := padZeros_all_digits 6 _ (natToChars_all_digits ((round (q * 1000000)).toNat % 1000000))
  rw [hcond1, hcond2, hcond3, charsVal_natToChars, charsVal_padZeros,
    charsVal_natToChars, hfraclen]
  simp only [Bool.false_and, Bool.and_self, Bool.not_true, Bool.or_false,
    Bool.false_eq_true, if_false]
  congr 1
  rw [round6, ← hcast]
  have hdm : (round (q * 1000000)).toNat / 1000000 * 1000000 +
      (round (q * 1000000)).toNat % 1000000 = (round (q * 1000000)).toNat := by
    omega
  have hdm' : (((round (q * 1000000)).toNat / 1000000 : ℕ) : ℚ) * 1000000 +
      (((round (q * 1000000)).toNat % 1000000 : ℕ) : ℚ) =
      (((round (q * 1000000)).toNat : ℕ) : ℚ) := by
    exact_mod_cast congrArg (fun n : ℕ => (n : ℚ)) hdm
  field_simp
  push_cast at hdm'
  linarith

theorem parseDecChars_cons (c : Char) (rest : List Char) :
    parseDecChars (c :: rest) =
      if c = '-' then (parseDecNN rest).map Neg.neg
      else if c = '+' then parseDecNN rest
      else parseDecNN (c :: rest) := rfl

theorem ratToCharsNN_head_digit (q : ℚ) :
    ∃ c cs, ratToCharsNN q = c :: cs ∧ isDigitCh c = true := by
  obtain ⟨c, cs, hcs, hdig⟩ :=
    natToChars_head_digit ((round (q * 1000000)).toNat / 1000000)
  exact ⟨c, cs ++ '.' :: padZeros 6 (natToChars ((round (q * 1000000)).toNat % 1000000)),
    by rw [ratToCharsNN, hcs]; rfl, hdig⟩

theorem parseDecChars_ratToChars (q : ℚ) :
    parseDecChars (ratToChars q) = some (fmtRound6 q) := by
  by_cases hneg : q < 0
  · have h1 : ratToChars q = '-' :: ratToCharsNN (-q) := by
      rw [ratToChars, if_pos hneg]
    rw [h1, parseDecChars_cons, if_pos rfl,
      parseDecNN_ratToCharsNN (-q) (by linarith), Option.map_some']
    rw [fmtRound6, if_pos hneg]
  · have h1 : ratToChars q = ratToCharsNN q := by
      rw [ratToChars, if_neg hneg]
    obtain ⟨c, cs, hcs, hdig⟩ := ratToCharsNN_head_digit q
    obtain ⟨hm, hp, _⟩ := isDigitCh_ne_signs hdig
    rw [h1, hcs, parseDecChars_cons, if_neg hm, if_neg hp, ← hcs,
      parseDecNN_ratToCharsNN q (by linarith), fmtRound6, if_neg hneg]

/-! ### Statistics engine

Modelled from the spec: the Go code delegates to the external
github.com/montanaflynn/stats package, whose source is not part of this
repository.  Spec §4.1 gives the contract: recompute from scratch, fail on
an empty sequence, sample (n-1) standard deviation, median as the
interpolated middle, and the nearest-rank-with-averaging percentile. -/

/-- Error condition of the statistics engine (`InsufficientData` /
out-of-bounds percentile). -/
inductive StatsErr where
  | emptyInput
  | bounds
deriving DecidableEq

/-- Minimum of a sample sequence; fails on empty input. -/
def statsMin : List ℚ → Except StatsErr ℚ
  | [] => .error .emptyInput
  | x :: xs => .ok (xs.foldl min x)

/-- Maximum of a sample sequence; fails on empty input. -/
def statsMax : List ℚ → Except StatsErr ℚ
  | [] => .error .emptyInput
  | x :: xs => .ok (xs.foldl max x)

/-- Arithmetic mean; fails on empty input. -/
def statsMean (xs : List ℚ) : Except StatsErr ℚ :=
  if xs.length = 0 then .error .emptyInput
  else .ok (xs.sum / (xs.length : ℚ))

/-- An ascending copy of the samples (`sort.Float64s` on a copy).  The Go
sort is unstable, but on a totally ordered list of plain values every
correct sort yields the same list. -/
def sortedCopy (xs : List ℚ) : List ℚ := List.insertionSort (fun a b => a ≤ b) xs

/-- Median: middle element, or the mean of the two middle elements; fails
on empty input. -/
def statsMedian (xs : List ℚ) : Except StatsErr ℚ :=
  let c := sortedCopy xs
  if c.length = 0 then .error .emptyInput
  else if c.length % 2 = 0 then
    .ok ((c.getD (c.length / 2 - 1) 0 + c.getD (c.length / 2) 0) / 2)
  else .ok (c.getD (c.length / 2) 0)

/-- Sample variance (n−1 denominator); fails on empty input.  The source
takes this value's square root; √ is irrational on ℚ, no claim depends on
the standard-deviation value, and every claim's control flow only needs
the success/failure shape, so the model stores the variance.  (For n = 1
the Go library divides by zero producing NaN without error; ℚ division by
zero gives 0, likewise without error.) -/
def statsStdDevS (xs : List ℚ) : Except StatsErr ℚ :=
  if xs.length = 0 then .error .emptyInput
  else
    .ok (((xs.map (fun x => (x - xs.sum / (xs.length : ℚ)) ^ 2)).sum) /
      ((xs.length : ℚ) - 1))

/-- Percentile by the nearest-rank-with-averaging method: fails on empty
input and on `percent ≤ 0 ∨ percent > 100` (except that a singleton input
returns its sole element before the bounds check). -/
def statsPercentile (xs : List ℚ) (percent : ℚ) : Except StatsErr ℚ :=
  match xs with
  | [] => .error .emptyInput
  | [x] => .ok x
  | _ =>
    if percent ≤ 0 ∨ percent > 100 then .error .bounds
    else
      let c := sortedCopy xs
      let index := percent / 100 * (c.length : ℚ)
      if index = ((⌊index⌋ : ℤ) : ℚ) then
        .ok (c.getD (⌊index⌋.toNat - 1) 0)
      else if index > 1 then
        .ok ((c.getD (⌊index⌋.toNat - 1) 0 + c.getD ⌊index⌋.toNat 0) / 2)
      else .error .bounds

/-! ### Query and Benchmark (source: main.go) -/

/-- Source struct `Query`: identity, SQL text, accumulated samples in
seconds, and the stats recomputed by `UpdateStats`. -/
structure Query where
  path : String := ""
  name : String := ""
  sql : String := ""
  seconds : List ℚ := []
  min : ℚ := 0
  max : ℚ := 0
  mean : ℚ := 0
  median : ℚ := 0
  stdDev : ℚ := 0
  p90 : ℚ := 0
  p95 : ℚ := 0
deriving DecidableEq

instance : Inhabited Query := ⟨{}⟩

/-- Source `Query.UpdateStats`: recompute all statistics from the sample
sequence, failing on the first statistic that errors. -/
def updateStats (q : Query) : Except StatsErr Query := do
  let mn ← statsMin q.seconds
  let mx ← statsMax q.seconds
  let me ← statsMean q.seconds
  let sd ← statsStdDevS q.seconds
  let md ← statsMedian q.seconds
  let p90 ← statsPercentile q.seconds 90
  let p95 ← statsPercentile q.seconds 95
  .ok { q with min := mn, max := mx, mean := me, stdDev := sd,
               median := md, p90 := p90, p95 := p95 }

/-- Source `Benchmark.Update` restricted to the query list: update the
stats of every query, then sort the list by ascending mean.  `sort.Slice`
is an unstable sort, so on ties the Go result is one unspecified
mean-ascending permutation; the model picks insertion sort, which agrees
with the Go result whenever means are distinct. -/
def benchUpdate (qs : List Query) : Except StatsErr (List Query) := do
  let qs' ← qs.mapM updateStats
  .ok (List.insertionSort (fun a b => a.mean ≤ b.mean) qs')

/-! ### Server-reported measurement strategy (source: query_duration.go) -/

/-- One statement's entry in the decoded `EXPLAIN (ANALYZE, FORMAT JSON,
TIMING OFF)` output (source struct `explainQuery`); both fields are in
milliseconds. -/
structure ExplainQuery where
  executionTime : ℚ
  planningTime : ℚ
deriving DecidableEq

/-- Errors a measurement invocation can produce.  `badJson` is the
source's `fmt.Errorf("bad json: %q", ...)` for a profile that does not
describe exactly one statement; `negativeTime` is the source's
`negativeTimeError{Type, Time}`; `other` stands for any driver/SQL error
surfaced by the database. -/
inductive MeasureError where
  | badJson
  | negativeTime (type : String) (time : ℚ)
  | other (msg : String)
deriving DecidableEq

/-- Go float64→int64 conversion: truncation toward zero. -/
def truncToZero (q : ℚ) : ℤ := if 0 ≤ q then ⌊q⌋ else -⌊-q⌋

/-- `time.Duration(float64(time.Millisecond) * t)`: a millisecond count
converted to integer nanoseconds. -/
def durationOfMs (t : ℚ) : ℤ := truncToZero (1000000 * t)

/-- Source `explainDuration`'s returned closure, applied to one decoded
profile (JSON transport and decoding are the standard library's;
the model starts from the decoded statement list). -/
def explainDuration (queries : List ExplainQuery) (includePlanning : Bool) :
    Except MeasureError ℤ :=
  if queries.length ≠ 1 then .error .badJson
  else
    let executionTime := (queries.headD ⟨0, 0⟩).executionTime
    let planningTime := (queries.headD ⟨0, 0⟩).planningTime
    if executionTime < 0 then .error (.negativeTime "Execution" executionTime)
    else if planningTime < 0 then .error (.negativeTime "Planning" planningTime)
    else
      let totalTime := if includePlanning then executionTime + planningTime
        else executionTime
      .ok (durationOfMs totalTime)

/-! ### Benchmark runner (source: main.go, `run`)

The database is an external collaborator: each invocation of a prepared
measurement closure consumes the next entry of an oracle trace.  The
render tick, interrupt signal and duration timer merge into the loop via a
non-blocking select checked once per pass; the model consumes one schedule
entry per select.  Rendered frames are write-only output and do not feed
back into the loop state, so the loop model does not re-invoke `render`
(it is modelled separately below). -/

/-- Result of invoking a prepared measurement closure once. -/
inductive MeasureOutcome where
  | ok (delta : ℤ)
  | err (e : MeasureError)
deriving DecidableEq

/-- `delta.Seconds()`: nanoseconds to (float) seconds. -/
def durationSeconds (delta : ℤ) : ℚ := (delta : ℚ) / 1000000000

/-- A persisted CSV row (source struct `CSVRow`). -/
structure CSVRow where
  iteration : ℤ
  query : String
  seconds : ℚ
deriving DecidableEq

/-- Reasons the run can stop or die. -/
inductive RunErr where
  | queryFailed (path : String) (e : MeasureError)
  | statsFailed (e : StatsErr)
  | oracleExhausted
deriving DecidableEq

/-- The inner retry loop of `run`: `delta, err := preparedFn()`; any error
aborts, a negative duration retries immediately, a non-negative duration
becomes the sample. -/
inductive MeasureResult where
  | sample (seconds : ℚ) (rest : List MeasureOutcome)
  | fail (e : MeasureError)
  | exhausted
deriving DecidableEq

def measureLoop : List MeasureOutcome → MeasureResult
  | [] => .exhausted
  | .err e :: _ => .fail e
  | .ok delta :: rest =>
    if delta < 0 then measureLoop rest
    else .sample (durationSeconds delta) rest

/-- One pass of the outer loop body: measure every query of the current
list in order, appending one sample per query and, when a CSV sink is
configured, one row `(i, query.Name, seconds)` per sample. -/
def runPass (csvOn : Bool) (i : ℤ) :
    List Query → List MeasureOutcome →
    Except RunErr (List Query × List CSVRow × List MeasureOutcome)
  | [], oracle => .ok ([], [], oracle)
  | q :: qs, oracle =>
    match measureLoop oracle with
    | .exhausted => .error .oracleExhausted
    | .fail e => .error (.queryFailed q.path e)
    | .sample secs rest =>
      match runPass csvOn i qs rest with
      | .error e => .error e
      | .ok (qs', rows, oracle') =>
        .ok ({ q with seconds := q.seconds ++ [secs] } :: qs',
          (if csvOn then [⟨i, q.name, secs⟩] else []) ++ rows, oracle')

/-- Which channel the end-of-pass non-blocking select observes. -/
inductive LoopEvent where
  | tick
  | signal
  | timer
  | defaultCase
deriving DecidableEq

/-- The termination reason printed as the exit message. -/
inductive ExitReason where
  | iterationsDone (i : ℤ)
  | interrupted
  | timeExpired
deriving DecidableEq

structure RunState where
  queries : List Query
  csv : List CSVRow
deriving DecidableEq

inductive RunResult where
  | finished (reason : ExitReason) (s : RunState)
  | failed (e : RunErr)
  | outOfFuel (s : RunState)
deriving DecidableEq

/-- The `outerLoop` of `run`.  `fuel` bounds how many passes the finite
model simulates (`outOfFuel` marks a run that would still be looping);
after each pass the iteration cap is checked first, then one schedule
entry decides the select (an exhausted schedule behaves like the default
branch). -/
def runLoop (csvOn : Bool) (iterationsF : ℤ) :
    ℕ → ℤ → List Query → List LoopEvent → List MeasureOutcome → List CSVRow →
    RunResult
  | 0, _, qs, _, _, csv => .outOfFuel ⟨qs, csv⟩
  | fuel + 1, i, qs, events, oracle, csv =>
    match runPass csvOn i qs oracle with
    | .error e => .failed e
    | .ok (qs', rows, oracle') =>
      let csv' := csv ++ rows
      if i ≥ iterationsF ∧ iterationsF > 0 then
        .finished (.iterationsDone i) ⟨qs', csv'⟩
      else
        match events with
        | [] => runLoop csvOn iterationsF fuel (i + 1) qs' [] oracle' csv'
        | .tick :: evs =>
          match benchUpdate qs' with
          | .error e => .failed (.statsFailed e)
          | .ok qs'' => runLoop csvOn iterationsF fuel (i + 1) qs'' evs oracle' csv'
        | .signal :: _ => .finished .interrupted ⟨qs', csv'⟩
        | .timer :: _ => .finished .timeExpired ⟨qs', csv'⟩
        | .defaultCase :: evs => runLoop csvOn iterationsF fuel (i + 1) qs' evs oracle' csv'

/-- `run` from loop entry to the exit message: the outer loop starting at
iteration 1 with an empty CSV body, followed by the final `bench.Update()`
before the final render. -/
def runBench (csvOn : Bool) (iterationsF : ℤ) (fuel : ℕ) (qs : List Query)
    (events : List LoopEvent) (oracle : List MeasureOutcome) : RunResult :=
  match runLoop csvOn iterationsF fuel 1 qs events oracle [] with
  | .finished r s =>
    match benchUpdate s.queries with
    | .error e => .failed (.statsFailed e)
    | .ok qs' => .finished r ⟨qs', s.csv⟩
  | r => r

/-! ### CSV codec and baseline loader (source: csv.go, main.go)

encoding/csv is an external collaborator; the model works at the record
level, the lists of column strings a `csv.Writer` receives and a
`csv.Reader`'s `ReadAll` returns. -/

def intToStr (i : ℤ) : String := String.mk (intToChars i)

def ratToStr (q : ℚ) : String := String.mk (ratToChars q)

def parseIntStr (s : String) : Option ℤ := parseIntChars s.data

def parseDecStr (s : String) : Option ℚ := parseDecChars s.data

/-- One column of the CSV codec (source struct `csvColumn`). -/
structure CsvColumn where
  name : String
  unmarshalColumn : String → CSVRow → Option CSVRow
  marshalColumn : CSVRow → Option String

/-- Source `csvColumns`: iteration (`%d` / ParseInt), query (verbatim),
seconds (`%f` / ParseFloat). -/
def csvColumns : List CsvColumn :=
  [{ name := "iteration",
     unmarshalColumn := fun val r =>
       (parseIntStr val).map (fun i => { r with iteration := i }),
     marshalColumn := fun r => some (intToStr r.iteration) },
   { name := "query",
     unmarshalColumn := fun val r => some { r with query := val },
     marshalColumn := fun r => some r.query },
   { name := "seconds",
     unmarshalColumn := fun val r =>
       (parseDecStr val).map (fun s => { r with seconds := s }),
     marshalColumn := fun r => some (ratToStr r.seconds) }]

/-- Source `csvHeader`. -/
def csvHeader : List String := csvColumns.map (fun col => col.name)

/-- Source `CSVRow.UnmarshalRecord`: apply each column's decoder in order
to a zero row, stopping at the first error.  (`checkCSVColumns` has
already pinned the record to exactly `len(csvColumns)` columns.) -/
def unmarshalRecordAux (r : CSVRow) : List (CsvColumn × String) → Option CSVRow
  | [] => some r
  | (col, val) :: rest =>
    match col.unmarshalColumn val r with
    | none => none
    | some r' => unmarshalRecordAux r' rest

def unmarshalRecord (record : List String) : Option CSVRow :=
  unmarshalRecordAux ⟨0, "", 0⟩ (csvColumns.zip record)

/-- Source `CSVRow.MarshalRecord`. -/
def marshalRecord (r : CSVRow) : Option (List String) :=
  csvColumns.mapM (fun col => col.marshalColumn r)

/-- Source `checkCSVColumns`: the record must have exactly one entry per
column. -/
def checkCSVColumns (record : List String) : Bool :=
  record.length = csvColumns.length

/-- Rows 2.. of `loadCSVRows` (the numeric argument is the 1-based row
number used in error messages). -/
def loadCSVBody (i : ℕ) : List (List String) → Except String (List CSVRow)
  | [] => .ok []
  | record :: rest =>
    if ¬ checkCSVColumns record then
      .error ("row=" ++ String.mk (natToChars i) ++ ": bad number of columns")
    else
      match unmarshalRecord record with
      | none => .error ("row=" ++ String.mk (natToChars i) ++ ": bad value")
      | some row =>
        match loadCSVBody (i + 1) rest with
        | .error e => .error e
        | .ok rows => .ok (row :: rows)

/-- Source `loadCSVRows` on the records returned by `ReadAll`: an empty
file yields no rows; otherwise the first record must have the right column
count and equal the header, and every later record decodes to a `CSVRow`. -/
def loadCSVRows (records : List (List String)) : Except String (List CSVRow) :=
  match records with
  | [] => .ok []
  | header :: rest =>
    if ¬ checkCSVColumns header then .error "row=1: bad number of columns"
    else if header ≠ csvHeader then .error "unexpected header column"
    else loadCSVBody 2 rest

/-- One step of `loadBaseline`'s grouping: append the row's seconds to the
query with that name, creating it (in arrival order) on first sight. -/
def addBaselineRow (queries : List Query) (row : CSVRow) : List Query :=
  if queries.any (fun q => q.name = row.query) then
    queries.map (fun q =>
      if q.name = row.query then { q with seconds := q.seconds ++ [row.seconds] }
      else q)
  else queries ++ [{ name := row.query, seconds := [row.seconds] }]

/-- Source `loadBaseline` on decoded records: group rows by query name in
first-seen order, then run `UpdateStats` on every group (its error is
discarded by the source, so a failing group keeps zero-valued stats). -/
def loadBaseline (records : List (List String)) : Except String (List Query) :=
  match loadCSVRows records with
  | .error e => .error e
  | .ok rows =>
    .ok (((rows.foldl addBaselineRow []).map (fun q =>
      match updateStats q with
      | .ok q' => q'
      | .error _ => q)))

/-- The record stream `run` hands to the csv.Writer: the header first,
then one marshalled record per sample row. -/
def writeCSV (rows : List CSVRow) : List (List String) :=
  csvHeader :: rows.map (fun r => (marshalRecord r).getD [])

/-! ### Renderer (source: main.go, `render`)

The table body is modelled as the list of its eight rows (label first,
then one cell per displayed query, in the given query order); ANSI
clear-screen output and the tablewriter layout are external.  A `none`
result models the nil-pointer dereference that `tableFields(baselineQuery)`
performs when a non-empty baseline lacks a displayed query's name. -/

def natToStr (n : ℕ) : String := String.mk (natToChars n)

/-- Go `fmt.Sprintf("%.2f", q)` for `0 ≤ q` (same rounding model as the
six-digit form). -/
def fmt2NN (q : ℚ) : List Char :=
  natToChars ((round (q * 100)).toNat / 100) ++
    '.' :: padZeros 2 (natToChars ((round (q * 100)).toNat % 100))

def fmt2Chars (q : ℚ) : List Char :=
  if q < 0 then '-' :: fmt2NN (-q) else fmt2NN q

def fmt2Str (q : ℚ) : String := String.mk (fmt2Chars q)

/-- The fields of one display column, scaled to milliseconds (source
`tableFields`). -/
def tableFields (q : Query) : List ℚ :=
  [q.min * 1000, q.max * 1000, q.mean * 1000, q.stdDev * 1000,
   q.median * 1000, q.p90 * 1000, q.p95 * 1000]

/-- The `baselineLookup` map: later baseline entries with the same name
overwrite earlier ones. -/
def baselineLookup (baseline : List Query) (name : String) : Option Query :=
  baseline.reverse.find? (fun q => q.name = name)

def statLabels : List String :=
  ["n", "min", "max", "mean", "stddev", "median", "p90", "p95"]

/-- The per-query column loop of `render`: `i` is the display index, `bf0`
the mutable `baselineFields` (nil until the first query sets it in
no-baseline mode).  ℚ division by zero yields 0 where Go float division
would print `+Inf`/`NaN`; no claim touches that case. -/
def renderCols (baseline : List Query) :
    ℕ → Option (List ℚ) → List Query → Option (List (List String))
  | _, _, [] => some [[], [], [], [], [], [], [], []]
  | i, bf0, q :: qs =>
    let fields := tableFields q
    let bq : Option Query :=
      if baseline.length > 0 then baselineLookup baseline q.name else none
    if baseline.length > 0 ∧ bq = none then none
    else
      let bf : List ℚ :=
        if baseline.length > 0 then tableFields (bq.getD default)
        else bf0.getD fields
      let nCell :=
        natToStr q.seconds.length ++
          (match bq with
           | some b => " (" ++
               fmt2Str ((q.seconds.length : ℚ) / (b.seconds.length : ℚ)) ++ "x)"
           | none => "")
      let statCells := (fields.zip bf).map (fun fv =>
        fmt2Str fv.1 ++
          (if 0 < i ∨ bq.isSome then " (" ++ fmt2Str (fv.1 / fv.2) ++ "x)"
           else ""))
      match renderCols baseline (i + 1) (some bf) qs with
      | none => none
      | some rest =>
        some (List.zipWith (fun c cells => c :: cells) (nCell :: statCells) rest)

/-- Source `render`, reduced to the table body it appends (headers are the
query names in the same order; the screen-clearing escape codes and the
always-nil error return are dropped). -/
def render (queries : List Query) (baseline : List Query) :
    Option (List (List String)) :=
  (renderCols baseline 0 none queries).map
    (fun cols => List.zipWith (fun label cells => label :: cells) statLabels cols)



/-! ### Claim theorems: measurement strategy -/

instance {ε α : Type} [DecidableEq ε] [DecidableEq α] : DecidableEq (Except ε α) := fun x y =>
  match x, y with
  | .ok a, .ok b =>
    if h : a = b then isTrue (congrArg Except.ok h)
    else isFalse (fun hc => h (Except.ok.inj hc))
  | .error a, .error b =>
    if h : a = b then isTrue (congrArg Except.error h)
    else isFalse (fun hc => h (Except.error.inj hc))
  | .ok _, .error _ => isFalse (fun hc => Except.noConfusion hc)
  | .error _, .ok _ => isFalse (fun hc => Except.noConfusion hc)

theorem explainDuration_eq (e p : ℚ) (ip : Bool) (he : ¬ e < 0) (hp : ¬ p < 0) :
    explainDuration [⟨e, p⟩] ip =
      .ok (durationOfMs (if ip then e + p else e)) := by
  rw [explainDuration, if_neg (by simp)]
  show (if e < 0 then _ else if p < 0 then _ else _) = _
  rw [if_neg he, if_neg hp]
  rfl

/-- C3: for a well-formed single-statement profile with non-negative
execution and planning times (milliseconds), the server-reported strategy
returns the duration of the execution time alone when `includePlanning` is
false, and of execution plus planning when it is true. -/
theorem explainDuration_planning_split (e p : ℚ) (he : 0 ≤ e) (hp : 0 ≤ p) :
    explainDuration [⟨e, p⟩] false = .ok (durationOfMs e) ∧
    explainDuration [⟨e, p⟩] true = .ok (durationOfMs (e + p)) :=
  ⟨explainDuration_eq e p false (not_lt.mpr he) (not_lt.mpr hp),
   explainDuration_eq e p true (not_lt.mpr he) (not_lt.mpr hp)⟩

theorem explainDuration_planning_split_witness :
    (0 ≤ (3 / 2 : ℚ)) ∧ (0 ≤ (1 / 2 : ℚ)) ∧
    (explainDuration [⟨3 / 2, 1 / 2⟩] false = .ok (durationOfMs (3 / 2)) ∧
     explainDuration [⟨3 / 2, 1 / 2⟩] true = .ok (durationOfMs (3 / 2 + 1 / 2))) :=
  ⟨by norm_num, by norm_num,
   explainDuration_planning_split (3 / 2) (1 / 2) (by norm_num) (by norm_num)⟩

/-- C4: a profile describing zero or two-or-more statements fails with the
distinct `bad json` error (not `negativeTime`, not success), so no sample
is ever produced from it. -/
theorem explainDuration_malformed (qs : List ExplainQuery) (ip : Bool)
    (h : qs.length = 0 ∨ 2 ≤ qs.length) :
    explainDuration qs ip = .error .badJson ∧
    ∀ d : ℤ, explainDuration qs ip ≠ .ok d := by
  have hne : qs.length ≠ 1 := by omega
  refine ⟨by rw [explainDuration, if_pos hne], ?_⟩
  intro d hc
  rw [explainDuration, if_pos hne] at hc
  cases hc

theorem explainDuration_malformed_witness :
    (([] : List ExplainQuery).length = 0 ∨ 2 ≤ ([] : List ExplainQuery).length) ∧
    (explainDuration [] false = .error .badJson ∧
     ∀ d : ℤ, explainDuration [] false ≠ .ok d) :=
  ⟨Or.inl rfl, explainDuration_malformed [] false (Or.inl rfl)⟩

/-- C1 (the code, evaluated at the failing input): a `NegativeTime` error
from the server-reported strategy is returned as an error by the prepared
closure, and the benchmark loop aborts the whole run with the query's path
attached instead of retrying; no sample and no CSV row are produced.  The
`delta < 0 → continue` retry only fires for a negative duration returned
WITHOUT an error, which the current `explainDuration` never produces. -/
theorem negativeTime_aborts_run :
    explainDuration [⟨-1, 0⟩] false = .error (.negativeTime "Execution" (-1)) ∧
    runBench true 5 10
        [{ path := "examples/sum/gauss.sql", name := "gauss", sql := "SELECT 1" }]
        [] [.err (.negativeTime "Execution" (-1))] =
      .failed (.queryFailed "examples/sum/gauss.sql"
        (.negativeTime "Execution" (-1))) := by
  constructor
  · decide
  · decide

/-! ### Claim theorems: statistics engine -/

theorem foldl_min_le_init (xs : List ℚ) : ∀ x : ℚ, xs.foldl min x ≤ x := by
  induction xs with
  | nil => intro x; exact le_refl x
  | cons z zs ih =>
    intro x
    calc (z :: zs).foldl min x = zs.foldl min (min x z) := rfl
      _ ≤ min x z := ih (min x z)
      _ ≤ x := min_le_left _ _

theorem foldl_min_le_mem (xs : List ℚ) : ∀ x y : ℚ, y ∈ xs → xs.foldl min x ≤ y := by
  induction xs with
  | nil => intro x y hy; simp at hy
  | cons z zs ih =>
    intro x y hy
    rw [List.mem_cons] at hy
    rcases hy with rfl | hy'
    · calc (y :: zs).foldl min x = zs.foldl min (min x y) := rfl
        _ ≤ min x y := foldl_min_le_init zs (min x y)
        _ ≤ y := min_le_right _ _
    · exact ih (min x z) y hy'

theorem foldl_min_le (x : ℚ) (xs : List ℚ) :
    ∀ y ∈ x :: xs, xs.foldl min x ≤ y := by
  intro y hy
  rw [List.mem_cons] at hy
  rcases hy with rfl | hy'
  · exact foldl_min_le_init xs y
  · exact foldl_min_le_mem xs x y hy'

theorem le_foldl_max_init (xs : List ℚ) : ∀ x : ℚ, x ≤ xs.foldl max x := by
  induction xs with
  | nil => intro x; exact le_refl x
  | cons z zs ih =>
    intro x
    calc x ≤ max x z := le_max_left _ _
      _ ≤ zs.foldl max (max x z) := ih (max x z)

theorem le_foldl_max_mem (xs : List ℚ) : ∀ x y : ℚ, y ∈ xs → y ≤ xs.foldl max x := by
  induction xs with
  | nil => intro x y hy; simp at hy
  | cons z zs ih =>
    intro x y hy
    rw [List.mem_cons] at hy
    rcases hy with rfl | hy'
    · calc y ≤ max x y := le_max_right _ _
        _ ≤ zs.foldl max (max x y) := le_foldl_max_init zs (max x y)
    · exact ih (max x z) y hy'

theorem le_foldl_max (x : ℚ) (xs : List ℚ) :
    ∀ y ∈ x :: xs, y ≤ xs.foldl max x := by
  intro y hy
  rw [List.mem_cons] at hy
  rcases hy with rfl | hy'
  · exact le_foldl_max_init xs y
  · exact le_foldl_max_mem xs x y hy'

theorem mul_length_le_sum (l : List ℚ) (m : ℚ) (h : ∀ y ∈ l, m ≤ y) :
    m * l.length ≤ l.sum := by
  induction l with
  | nil => simp
  | cons y t ih =>
    have hy : m ≤ y := h y (by simp)
    have ht : ∀ z ∈ t, m ≤ z := fun z hz => h z (by simp [hz])
    have := ih ht
    simp only [List.sum_cons, List.length_cons]
    push_cast
    linarith

theorem sum_le_mul_length (l : List ℚ) (m : ℚ) (h : ∀ y ∈ l, y ≤ m) :
    l.sum ≤ m * l.length := by
  induction l with
  | nil => simp
  | cons y t ih =>
    have hy : y ≤ m := h y (by simp)
    have ht : ∀ z ∈ t, z ≤ m := fun z hz => h z (by simp [hz])
    have := ih ht
    simp only [List.sum_cons, List.length_cons]
    push_cast
    linarith

theorem statsMedian_bounds (S : List ℚ) (hS : S ≠ []) (mn mx : ℚ)
    (hmn : ∀ y ∈ S, mn ≤ y) (hmx : ∀ y ∈ S, y ≤ mx) :
    ∃ md, statsMedian S = .ok md ∧ mn ≤ md ∧ md ≤ mx := by
  have hperm := List.perm_insertionSort (fun a b => a ≤ b) S
  have hlen : (sortedCopy S).length = S.length := hperm.length_eq
  have hmem : ∀ y ∈ sortedCopy S, mn ≤ y ∧ y ≤ mx := fun y hy =>
    ⟨hmn y (hperm.mem_iff.mp hy), hmx y (hperm.mem_iff.mp hy)⟩
  have hlpos : 0 < (sortedCopy S).length := by
    rw [hlen]
    exact List.length_pos.mpr hS
  have h0 : ¬ (sortedCopy S).length = 0 := by omega
  simp only [statsMedian]
  by_cases hpar : (sortedCopy S).length % 2 = 0
  · have hge2 : 2 ≤ (sortedCopy S).length := by omega
    have hi1 : (sortedCopy S).length / 2 - 1 < (sortedCopy S).length := by omega
    have hi2 : (sortedCopy S).length / 2 < (sortedCopy S).length := by omega
    rw [if_neg h0, if_pos hpar]
    refine ⟨_, rfl, ?_, ?_⟩
    · have b1 := hmem _ (List.getElem_mem hi1)
      have b2 := hmem _ (List.getElem_mem hi2)
      rw [List.getD_eq_getElem _ 0 hi1, List.getD_eq_getElem _ 0 hi2]
      linarith [b1.1, b2.1]
    · have b1 := hmem _ (List.getElem_mem hi1)
      have b2 := hmem _ (List.getElem_mem hi2)
      rw [List.getD_eq_getElem _ 0 hi1, List.getD_eq_getElem _ 0 hi2]
      linarith [b1.2, b2.2]
  · have hi : (sortedCopy S).length / 2 < (sortedCopy S).length := by omega
    rw [if_neg h0, if_neg hpar]
    refine ⟨_, rfl, ?_, ?_⟩
    · have b := hmem _ (List.getElem_mem hi)
      rw [List.getD_eq_getElem _ 0 hi]
      exact b.1
    · have b := hmem _ (List.getElem_mem hi)
      rw [List.getD_eq_getElem _ 0 hi]
      exact b.2

/-- C6: for every non-empty sample sequence the recomputed statistics
satisfy min ≤ median ≤ max and min ≤ mean ≤ max.  (The statistics engine
is modelled from the spec, the Go implementation being the external
montanaflynn/stats dependency.) -/
theorem stats_order_bounds (S : List ℚ) (hS : S ≠ []) :
    ∃ mn mx md me, statsMin S = .ok mn ∧ statsMax S = .ok mx ∧
      statsMedian S = .ok md ∧ statsMean S = .ok me ∧
      mn ≤ md ∧ md ≤ mx ∧ mn ≤ me ∧ me ≤ mx := by
  obtain ⟨x, xs, rfl⟩ := List.exists_cons_of_ne_nil hS
  have hmn : ∀ y ∈ x :: xs, xs.foldl min x ≤ y := foldl_min_le x xs
  have hmx : ∀ y ∈ x :: xs, y ≤ xs.foldl max x := le_foldl_max x xs
  obtain ⟨md, hmd, hmd1, hmd2⟩ :=
    statsMedian_bounds (x :: xs) (by simp) _ _ hmn hmx
  have hlen : (0 : ℚ) < (((x :: xs).length : ℕ) : ℚ) := by
    rw [List.length_cons]
    push_cast
    positivity
  refine ⟨xs.foldl min x, xs.foldl max x, md,
    (x :: xs).sum / (((x :: xs).length : ℕ) : ℚ), rfl, rfl, hmd, ?_,
    hmd1, hmd2, ?_, ?_⟩
  · rw [statsMean, if_neg (by simp)]
  · rw [le_div_iff₀ hlen]
    exact mul_length_le_sum (x :: xs) _ hmn
  · rw [div_le_iff₀ hlen]
    exact sum_le_mul_length (x :: xs) _ hmx

theorem stats_order_bounds_witness :
    ([3, 1, 2] : List ℚ) ≠ [] ∧
    (∃ mn mx md me,
      statsMin [3, 1, 2] = .ok mn ∧ statsMax [3, 1, 2] = .ok mx ∧
      statsMedian [3, 1, 2] = .ok md ∧ statsMean [3, 1, 2] = .ok me ∧
      mn ≤ md ∧ md ≤ mx ∧ mn ≤ me ∧ me ≤ mx) :=
  ⟨by decide, stats_order_bounds [3, 1, 2] (by decide)⟩

/-! ### Claim theorems: CSV round trip -/

theorem parseIntStr_intToStr (i : ℤ) : parseIntStr (intToStr i) = some i :=
  parseIntChars_intToChars i

theorem parseDecStr_ratToStr (q : ℚ) : parseDecStr (ratToStr q) = some (fmtRound6 q) :=
  parseDecChars_ratToChars q

theorem marshalRecord_eq (r : CSVRow) :
    marshalRecord r = some [intToStr r.iteration, r.query, ratToStr r.seconds] := rfl

theorem unmarshalRecord_marshal (r : CSVRow) :
    unmarshalRecord [intToStr r.iteration, r.query, ratToStr r.seconds] =
      some ⟨r.iteration, r.query, fmtRound6 r.seconds⟩ := by
  show unmarshalRecordAux ⟨0, "", 0⟩ (csvColumns.zip
      [intToStr r.iteration, r.query, ratToStr r.seconds]) = _
  have h1 : parseIntStr (intToStr r.iteration) = some r.iteration :=
    parseIntStr_intToStr _
  have h3 : parseDecStr (ratToStr r.seconds) = some (fmtRound6 r.seconds) :=
    parseDecStr_ratToStr _
  simp only [csvColumns, List.zip, List.zipWith, unmarshalRecordAux, h1, h3,
    Option.map_some']

theorem checkCSVColumns_three (a b c : String) :
    checkCSVColumns [a, b, c] = true := rfl

theorem loadCSVBody_writeRows (rows : List CSVRow) :
    ∀ i : ℕ, loadCSVBody i
        (rows.map (fun r => [intToStr r.iteration, r.query, ratToStr r.seconds])) =
      .ok (rows.map (fun r => ⟨r.iteration, r.query, fmtRound6 r.seconds⟩)) := by
  induction rows with
  | nil => intro i; rfl
  | cons r t ih =>
    intro i
    simp only [List.map_cons, loadCSVBody, checkCSVColumns_three, not_true,
      if_false, unmarshalRecord_marshal, ih (i + 1)]

theorem loadCSVRows_writeCSV (rows : List CSVRow) :
    loadCSVRows (writeCSV rows) =
      .ok (rows.map (fun r => ⟨r.iteration, r.query, fmtRound6 r.seconds⟩)) := by
  have hmap : rows.map (fun r => (marshalRecord r).getD []) =
      rows.map (fun r => [intToStr r.iteration, r.query, ratToStr r.seconds]) := rfl
  rw [writeCSV, hmap, loadCSVRows]
  rw [if_neg (by decide), if_neg (by simp)]
  exact loadCSVBody_writeRows rows 2

/-- The query names of a row stream in first-seen order. -/
def firstSeen (names : List String) : List String :=
  names.foldl (fun acc n => if n ∈ acc then acc else acc ++ [n]) []

theorem addBaselineRow_names (acc : List Query) (row : CSVRow) :
    (addBaselineRow acc row).map Query.name =
      if row.query ∈ acc.map Query.name then acc.map Query.name
      else acc.map Query.name ++ [row.query] := by
  rw [addBaselineRow]
  by_cases h : acc.any (fun q => q.name = row.query)
  · have hmem : row.query ∈ acc.map Query.name := by
      rw [List.any_eq_true] at h
      obtain ⟨q, hq, hq2⟩ := h
      rw [decide_eq_true_eq] at hq2
      exact List.mem_map.mpr ⟨q, hq, hq2⟩
    rw [if_pos h, if_pos hmem, List.map_map]
    apply List.map_congr_left
    intro q _
    by_cases hq : q.name = row.query
    · simp [Function.comp, hq]
    · simp [Function.comp, hq]
  · have hmem : row.query ∉ acc.map Query.name := by
      intro hc
      obtain ⟨q, hq, hq2⟩ := List.mem_map.mp hc
      rw [List.any_eq_true] at h
      exact h ⟨q, hq, by rw [decide_eq_true_eq]; exact hq2⟩
    rw [if_neg h, if_neg hmem, List.map_append]
    rfl

theorem foldl_addBaselineRow_names (rows : List CSVRow) :
    ∀ acc : List Query,
      (rows.foldl addBaselineRow acc).map Query.name =
        rows.foldl (fun ns r => if r.query ∈ ns then ns else ns ++ [r.query])
          (acc.map Query.name) := by
  induction rows with
  | nil => intro acc; rfl
  | cons r t ih =>
    intro acc
    simp only [List.foldl_cons]
    rw [ih (addBaselineRow acc r), addBaselineRow_names]

theorem firstSeen_map_query (rows : List CSVRow) :
    (rows.foldl addBaselineRow []).map Query.name =
      firstSeen (rows.map CSVRow.query) := by
  rw [foldl_addBaselineRow_names rows [], firstSeen, List.foldl_map]
  rfl

/-- The sample count currently grouped under `name` (0 when absent). -/
def baseLen (acc : List Query) (name : String) : ℕ :=
  match acc.find? (fun q => q.name = name) with
  | some q => q.seconds.length
  | none => 0

theorem baseLen_update_other (acc : List Query) (row : CSVRow) (nm : String)
    (hne : nm ≠ row.query) :
    baseLen (acc.map (fun q => if q.name = row.query then
        { q with seconds := q.seconds ++ [row.seconds] } else q)) nm =
      baseLen acc nm := by
  induction acc with
  | nil => rfl
  | cons p t ih =>
    by_cases hp : p.name = nm
    · have hpn : p.name ≠ row.query := by rw [hp]; exact hne
      simp only [List.map_cons, if_neg hpn, baseLen]
      rw [List.find?_cons_of_pos _ (by rw [decide_eq_true_eq]; exact hp),
        List.find?_cons_of_pos _ (by rw [decide_eq_true_eq]; exact hp)]
    · simp only [List.map_cons, baseLen]
      by_cases hpq : p.name = row.query
      · rw [if_pos hpq]
        rw [List.find?_cons_of_neg _ (by rw [decide_eq_true_eq]; exact hp),
          List.find?_cons_of_neg _ (by rw [decide_eq_true_eq]; exact hp)]
        exact ih
      · rw [if_neg hpq]
        rw [List.find?_cons_of_neg _ (by rw [decide_eq_true_eq]; exact hp),
          List.find?_cons_of_neg _ (by rw [decide_eq_true_eq]; exact hp)]
        exact ih

theorem baseLen_update_match (acc : List Query) (row : CSVRow)
    (hmem : ∃ q ∈ acc, q.name = row.query) :
    baseLen (acc.map (fun q => if q.name = row.query then
        { q with seconds := q.seconds ++ [row.seconds] } else q)) row.query =
      baseLen acc row.query + 1 := by
  induction acc with
  | nil => simp at hmem
  | cons p t ih =>
    by_cases hp : p.name = row.query
    · simp only [List.map_cons, if_pos hp, baseLen]
      rw [List.find?_cons_of_pos _ (by rw [decide_eq_true_eq]; exact hp),
        List.find?_cons_of_pos _ (by rw [decide_eq_true_eq]; exact hp)]
      simp
    · have hmem' : ∃ q ∈ t, q.name = row.query := by
        obtain ⟨q, hq, hq2⟩ := hmem
        rw [List.mem_cons] at hq
        rcases hq with rfl | hq'
        · exact absurd hq2 hp
        · exact ⟨q, hq', hq2⟩
      simp only [List.map_cons, if_neg hp, baseLen]
      rw [List.find?_cons_of_neg _ (by rw [decide_eq_true_eq]; exact hp),
        List.find?_cons_of_neg _ (by rw [decide_eq_true_eq]; exact hp)]
      have := ih hmem'
      simp only [baseLen] at this
      exact this

theorem baseLen_append_other (acc : List Query) (row : CSVRow) (nm : String)
    (hne : nm ≠ row.query) :
    baseLen (acc ++ [{ name := row.query, seconds := [row.seconds] : Query }]) nm =
      baseLen acc nm := by
  induction acc with
  | nil =>
    simp only [List.nil_append, baseLen]
    rw [List.find?_cons_of_neg _ (by rw [decide_eq_true_eq]; exact fun h => hne h.symm)]
  | cons p t ih =>
    by_cases hp : p.name = nm
    · simp only [List.cons_append, baseLen]
      rw [List.find?_cons_of_pos _ (by rw [decide_eq_true_eq]; exact hp),
        List.find?_cons_of_pos _ (by rw [decide_eq_true_eq]; exact hp)]
    · simp only [List.cons_append, baseLen]
      rw [List.find?_cons_of_neg _ (by rw [decide_eq_true_eq]; exact hp),
        List.find?_cons_of_neg _ (by rw [decide_eq_true_eq]; exact hp)]
      have := ih
      simp only [baseLen] at this
      exact this

theorem baseLen_append_new (acc : List Query) (row : CSVRow)
    (hnone : ∀ q ∈ acc, q.name ≠ row.query) :
    baseLen (acc ++ [{ name := row.query, seconds := [row.seconds] : Query }])
        row.query = 1 ∧
    baseLen acc row.query = 0 := by
  induction acc with
  | nil =>
    constructor
    · simp only [List.nil_append, baseLen]
      rw [List.find?_cons_of_pos _ (by rw [decide_eq_true_eq])]
      rfl
    · rfl
  | cons p t ih =>
    have hp : p.name ≠ row.query := hnone p (by simp)
    have ht : ∀ q ∈ t, q.name ≠ row.query := fun q hq => hnone q (by simp [hq])
    obtain ⟨ih1, ih2⟩ := ih ht
    constructor
    · simp only [List.cons_append, baseLen]
      rw [List.find?_cons_of_neg _ (by rw [decide_eq_true_eq]; exact hp)]
      simp only [baseLen] at ih1
      exact ih1
    · simp only [baseLen]
      rw [List.find?_cons_of_neg _ (by rw [decide_eq_true_eq]; exact hp)]
      simp only [baseLen] at ih2
      exact ih2

theorem baseLen_addBaselineRow (acc : List Query) (row : CSVRow) (nm : String) :
    baseLen (addBaselineRow acc row) nm =
      baseLen acc nm + (if nm = row.query then 1 else 0) := by
  rw [addBaselineRow]
  by_cases h : acc.any (fun q => q.name = row.query)
  · rw [if_pos h]
    by_cases hnm : nm = row.query
    · subst hnm
      rw [if_pos rfl]
      apply baseLen_update_match
      rw [List.any_eq_true] at h
      obtain ⟨q, hq, hq2⟩ := h
      exact ⟨q, hq, by rwa [decide_eq_true_eq] at hq2⟩
    · rw [if_neg hnm, baseLen_update_other acc row nm hnm]
      omega
  · rw [if_neg h]
    have hnone : ∀ q ∈ acc, q.name ≠ row.query := by
      intro q hq hc
      rw [List.any_eq_true] at h
      exact h ⟨q, hq, by rw [decide_eq_true_eq]; exact hc⟩
    by_cases hnm : nm = row.query
    · subst hnm
      rw [if_pos rfl, (baseLen_append_new acc row hnone).2,
        (baseLen_append_new acc row hnone).1]
    · rw [if_neg hnm, baseLen_append_other acc row nm hnm]
      omega

theorem baseLen_foldl (rows : List CSVRow) :
    ∀ (acc : List Query) (nm : String),
      baseLen (rows.foldl addBaselineRow acc) nm =
        baseLen acc nm + (rows.filter (fun r => r.query = nm)).length := by
  induction rows with
  | nil => intro acc nm; simp
  | cons r t ih =>
    intro acc nm
    simp only [List.foldl_cons]
    rw [ih (addBaselineRow acc r) nm, baseLen_addBaselineRow]
    by_cases hr : r.query = nm
    · rw [List.filter_cons_of_pos (by rw [decide_eq_true_eq]; exact hr)]
      rw [if_pos hr.symm, List.length_cons]
      omega
    · rw [List.filter_cons_of_neg (by rw [decide_eq_true_eq]; exact hr)]
      rw [if_neg (fun hc => hr hc.symm)]
      omega

theorem find?_of_nodup_mem (l : List Query) (q : Query)
    (hnd : (l.map Query.name).Nodup) (hq : q ∈ l) :
    l.find? (fun p => p.name = q.name) = some q := by
  induction l with
  | nil => simp at hq
  | cons p t ih =>
    rw [List.map_cons, List.nodup_cons] at hnd
    rw [List.mem_cons] at hq
    rcases hq with rfl | hq'
    · rw [List.find?_cons_of_pos _ (by rw [decide_eq_true_eq])]
    · have hne : p.name ≠ q.name := by
        intro hc
        exact hnd.1 (hc ▸ List.mem_map.mpr ⟨q, hq', rfl⟩)
      rw [List.find?_cons_of_neg _ (by rw [decide_eq_true_eq]; exact hne)]
      exact ih hnd.2 hq'

theorem firstSeen_nodup_aux (names : List String) :
    ∀ ns : List String, ns.Nodup →
      (names.foldl (fun acc n => if n ∈ acc then acc else acc ++ [n]) ns).Nodup := by
  induction names with
  | nil => intro ns h; exact h
  | cons n t ih =>
    intro ns h
    simp only [List.foldl_cons]
    by_cases hn : n ∈ ns
    · rw [if_pos hn]
      exact ih ns h
    · rw [if_neg hn]
      apply ih
      simp [List.nodup_append, h, hn]

theorem firstSeen_nodup (names : List String) : (firstSeen names).Nodup :=
  firstSeen_nodup_aux names [] List.nodup_nil

theorem updateStats_shape (q q' : Query) (h : updateStats q = .ok q') :
    q'.seconds = q.seconds ∧ q'.name = q.name ∧ q'.path = q.path := by
  simp only [updateStats, bind, Except.bind] at h
  cases h1 : statsMin q.seconds <;> rw [h1] at h
  · cases h
  cases h2 : statsMax q.seconds <;> rw [h2] at h
  · cases h
  cases h3 : statsMean q.seconds <;> rw [h3] at h
  · cases h
  cases h4 : statsStdDevS q.seconds <;> rw [h4] at h
  · cases h
  cases h5 : statsMedian q.seconds <;> rw [h5] at h
  · cases h
  cases h6 : statsPercentile q.seconds 90 <;> rw [h6] at h
  · cases h
  cases h7 : statsPercentile q.seconds 95 <;> rw [h7] at h
  · cases h
  cases h
  exact ⟨rfl, rfl, rfl⟩

theorem postStats_shape (q : Query) :
    (match updateStats q with
      | .ok q' => q'
      | .error _ => q).seconds = q.seconds ∧
    (match updateStats q with
      | .ok q' => q'
      | .error _ => q).name = q.name := by
  cases h : updateStats q with
  | ok q' => exact ⟨(updateStats_shape q q' h).1, (updateStats_shape q q' h).2.1⟩
  | error e => exact ⟨rfl, rfl⟩

/-- C7: writing the header plus one marshalled record per sample row and
loading the records back as a baseline groups the samples by query name,
preserving first-seen order, and each group holds exactly as many samples
as rows were written with that name. -/
theorem csv_roundTrip_grouping (rows : List CSVRow) :
    ∃ qs, loadBaseline (writeCSV rows) = .ok qs ∧
      qs.map Query.name = firstSeen (rows.map CSVRow.query) ∧
      ∀ q ∈ qs, q.seconds.length =
        (rows.filter (fun r => r.query = q.name)).length := by
  have hload : loadBaseline (writeCSV rows) =
      .ok (((rows.map (fun r =>
          (⟨r.iteration, r.query, fmtRound6 r.seconds⟩ : CSVRow))).foldl
          addBaselineRow []).map (fun q =>
        match updateStats q with
        | .ok q' => q'
        | .error _ => q)) := by
    rw [loadBaseline, loadCSVRows_writeCSV]
  set rows' := rows.map (fun r =>
    (⟨r.iteration, r.query, fmtRound6 r.seconds⟩ : CSVRow)) with hrows'
  have hquery : rows'.map CSVRow.query = rows.map CSVRow.query := by
    rw [hrows', List.map_map]
    rfl
  have hfilter : ∀ nm : String,
      (rows'.filter (fun r => r.query = nm)).length =
        (rows.filter (fun r => r.query = nm)).length := by
    intro nm
    rw [hrows', ← List.countP_eq_length_filter, ← List.countP_eq_length_filter,
      List.countP_map]
    rfl
  have hnames : ∀ l : List Query,
      (l.map (fun q => match updateStats q with
        | .ok q' => q'
        | .error _ => q)).map Query.name = l.map Query.name := by
    intro l
    rw [List.map_map]
    apply List.map_congr_left
    intro q _
    simp only [Function.comp]
    exact (postStats_shape q).2
  rw [hload]
  refine ⟨_, rfl, ?_, ?_⟩
  · rw [hnames, firstSeen_map_query, hquery]
  · intro q hq
    obtain ⟨q0, hq0, rfl⟩ := List.mem_map.mp hq
    rw [(postStats_shape q0).1, (postStats_shape q0).2]
    have hnd : ((rows'.foldl addBaselineRow []).map Query.name).Nodup := by
      rw [firstSeen_map_query]
      exact firstSeen_nodup _
    have hfind := find?_of_nodup_mem _ q0 hnd hq0
    have hbl : baseLen (rows'.foldl addBaselineRow []) q0.name =
        q0.seconds.length := by
      rw [baseLen, hfind]
    have hfold := baseLen_foldl rows' [] q0.name
    rw [hbl] at hfold
    have h0 : baseLen [] q0.name = 0 := rfl
    rw [h0] at hfold
    rw [hfold]
    rw [hfilter q0.name]
    omega

/-- C8 (counterexample): the seconds column is written with `%f`, fixed
six decimal places, not full precision: the value 10⁻⁷ s round-trips to 0. -/
theorem csv_seconds_not_full_precision :
    unmarshalRecord ((marshalRecord ⟨1, "q", 1 / 10000000⟩).getD []) =
      some ⟨1, "q", 0⟩ ∧ (0 : ℚ) ≠ 1 / 10000000 := by
  constructor
  · decide
  · decide

/-- C8 (amended): a persisted row carries the header
`iteration,query,seconds`; the iteration and query columns round-trip
exactly, but seconds is fixed six-decimal text, so decoding recovers the
value rounded to the nearest 10⁻⁶ rather than the exact original. -/
theorem csv_row_roundTrip (r : CSVRow) (hsec : 0 ≤ r.seconds) :
    csvHeader = ["iteration", "query", "seconds"] ∧
    unmarshalRecord ((marshalRecord r).getD []) =
      some ⟨r.iteration, r.query, round6 r.seconds⟩ := by
  refine ⟨rfl, ?_⟩
  rw [show unmarshalRecord ((marshalRecord r).getD []) =
      some (⟨r.iteration, r.query, fmtRound6 r.seconds⟩ : CSVRow) from
    unmarshalRecord_marshal r]
  rw [fmtRound6, if_neg (not_lt.mpr hsec)]

theorem csv_row_roundTrip_witness :
    (0 : ℚ) ≤ (3 / 2 : ℚ) ∧
    (csvHeader = ["iteration", "query", "seconds"] ∧
     unmarshalRecord ((marshalRecord (⟨1, "q", 3 / 2⟩ : CSVRow)).getD []) =
       some ⟨1, "q", round6 (3 / 2)⟩) :=
  ⟨by norm_num, csv_row_roundTrip ⟨1, "q", 3 / 2⟩ (by norm_num)⟩

/-! ### Claim theorems: benchmark loop -/

theorem sortedCopy_length (xs : List ℚ) : (sortedCopy xs).length = xs.length :=
  (List.perm_insertionSort (fun a b => a ≤ b) xs).length_eq

theorem statsMedian_ok (xs : List ℚ) (hx : xs ≠ []) :
    ∃ v, statsMedian xs = .ok v := by
  have h0 : ¬ (sortedCopy xs).length = 0 := by
    rw [sortedCopy_length]
    have := List.length_pos.mpr hx
    omega
  simp only [statsMedian]
  by_cases hpar : (sortedCopy xs).length % 2 = 0
  · exact ⟨_, by rw [if_neg h0, if_pos hpar]⟩
  · exact ⟨_, by rw [if_neg h0, if_neg hpar]⟩

theorem statsPercentile_ok2 (x y : ℚ) (t : List ℚ) (p : ℚ)
    (hp1 : 90 ≤ p) (hp2 : p ≤ 100) :
    ∃ v, statsPercentile (x :: y :: t) p = .ok v := by
  have hbound : ¬ (p ≤ 0 ∨ p > 100) := by
    push_neg
    constructor <;> linarith
  have hlen2 : (2 : ℚ) ≤ ((sortedCopy (x :: y :: t)).length : ℚ) := by
    have h := sortedCopy_length (x :: y :: t)
    have : 2 ≤ (sortedCopy (x :: y :: t)).length := by
      rw [h]
      simp only [List.length_cons]
      omega
    exact_mod_cast this
  have hidx : (1 : ℚ) < p / 100 * ((sortedCopy (x :: y :: t)).length : ℚ) := by
    nlinarith
  show ∃ v, (if p ≤ 0 ∨ p > 100 then (.error .bounds : Except StatsErr ℚ)
    else
      if p / 100 * ((sortedCopy (x :: y :: t)).length : ℚ) =
          ((⌊p / 100 * ((sortedCopy (x :: y :: t)).length : ℚ)⌋ : ℤ) : ℚ) then
        .ok ((sortedCopy (x :: y :: t)).getD
          (⌊p / 100 * ((sortedCopy (x :: y :: t)).length : ℚ)⌋.toNat - 1) 0)
      else if p / 100 * ((sortedCopy (x :: y :: t)).length : ℚ) > 1 then
        .ok (((sortedCopy (x :: y :: t)).getD
            (⌊p / 100 * ((sortedCopy (x :: y :: t)).length : ℚ)⌋.toNat - 1) 0 +
          (sortedCopy (x :: y :: t)).getD
            (⌊p / 100 * ((sortedCopy (x :: y :: t)).length : ℚ)⌋.toNat) 0) / 2)
      else .error .bounds) = .ok v
  rw [if_neg hbound]
  by_cases hw : p / 100 * ((sortedCopy (x :: y :: t)).length : ℚ) =
      ((⌊p / 100 * ((sortedCopy (x :: y :: t)).length : ℚ)⌋ : ℤ) : ℚ)
  · exact ⟨_, by rw [if_pos hw]⟩
  · exact ⟨_, by rw [if_neg hw, if_pos hidx]⟩

theorem statsPercentile_ok (xs : List ℚ) (hx : xs ≠ []) (p : ℚ)
    (hp1 : 90 ≤ p) (hp2 : p ≤ 100) :
    ∃ v, statsPercentile xs p = .ok v := by
  match xs with
  | [] => exact absurd rfl hx
  | [x] => exact ⟨x, rfl⟩
  | x :: y :: t => exact statsPercentile_ok2 x y t p hp1 hp2

theorem updateStats_ok (q : Query) (hne : q.seconds ≠ []) :
    ∃ q', updateStats q = .ok q' ∧ q'.seconds = q.seconds ∧
      q'.name = q.name ∧ q'.path = q.path := by
  obtain ⟨x, xs, hxx⟩ := List.exists_cons_of_ne_nil hne
  have hlen : ¬ q.seconds.length = 0 := by
    rw [hxx]
    simp
  have h1 : statsMin q.seconds = .ok (xs.foldl min x) := by rw [hxx]; rfl
  have h2 : statsMax q.seconds = .ok (xs.foldl max x) := by rw [hxx]; rfl
  have h3 : statsMean q.seconds =
      .ok (q.seconds.sum / (q.seconds.length : ℚ)) := by
    rw [statsMean, if_neg hlen]
  have h4 : statsStdDevS q.seconds =
      .ok (((q.seconds.map (fun v =>
          (v - q.seconds.sum / (q.seconds.length : ℚ)) ^ 2)).sum) /
        ((q.seconds.length : ℚ) - 1)) := by
    rw [statsStdDevS, if_neg hlen]
  obtain ⟨md, h5⟩ := statsMedian_ok q.seconds hne
  obtain ⟨v90, h6⟩ := statsPercentile_ok q.seconds hne 90 (by norm_num) (by norm_num)
  obtain ⟨v95, h7⟩ := statsPercentile_ok q.seconds hne 95 (by norm_num) (by norm_num)
  have hgoal : updateStats q = .ok { q with
      min := xs.foldl min x, max := xs.foldl max x,
      mean := q.seconds.sum / (q.seconds.length : ℚ),
      median := md,
      stdDev := ((q.seconds.map (fun v =>
          (v - q.seconds.sum / (q.seconds.length : ℚ)) ^ 2)).sum) /
        ((q.seconds.length : ℚ) - 1),
      p90 := v90, p95 := v95 } := by
    simp only [updateStats, bind, Except.bind]
    rw [h1, h2, h3, h4, h5, h6, h7]
  exact ⟨_, hgoal, rfl, rfl, rfl⟩

theorem mapM_updateStats_ok (k : ℕ) (hk : k ≠ 0) :
    ∀ qs : List Query,
      (∀ q ∈ qs, q.seconds.length = k) →
      ∃ qs', qs.mapM updateStats = .ok qs' ∧ qs'.length = qs.length ∧
        ∀ q ∈ qs', q.seconds.length = k := by
  intro qs
  induction qs with
  | nil => exact fun _ => ⟨[], rfl, rfl, by simp⟩
  | cons q t ih =>
    intro h
    have hq : q.seconds.length = k := h q (by simp)
    have hne : q.seconds ≠ [] := by
      intro hc
      rw [hc] at hq
      simp at hq
      exact hk hq.symm
    obtain ⟨q', hq', hsec, _, _⟩ := updateStats_ok q hne
    obtain ⟨t', ht', hlen, hall⟩ := ih (fun p hp => h p (by simp [hp]))
    refine ⟨q' :: t', ?_, by simp [hlen], ?_⟩
    · rw [List.mapM_cons, hq', ht']
      rfl
    · intro p hp
      rcases List.mem_cons.mp hp with rfl | hp'
      · rw [hsec]
        exact hq
      · exact hall p hp'

theorem benchUpdate_ok (qs : List Query) (k : ℕ) (hk : k ≠ 0)
    (h : ∀ q ∈ qs, q.seconds.length = k) :
    ∃ qs', benchUpdate qs = .ok qs' ∧ qs'.length = qs.length ∧
      ∀ q ∈ qs', q.seconds.length = k := by
  obtain ⟨qs1, h1, hlen, hall⟩ := mapM_updateStats_ok k hk qs h
  refine ⟨List.insertionSort (fun a b => a.mean ≤ b.mean) qs1, ?_, ?_, ?_⟩
  · simp only [benchUpdate, bind, Except.bind]
    rw [h1]
  · rw [(List.perm_insertionSort (fun a b => a.mean ≤ b.mean) qs1).length_eq, hlen]
  · intro q hq
    exact hall q
      ((List.perm_insertionSort (fun a b => a.mean ≤ b.mean) qs1).mem_iff.mp hq)

theorem runPass_cons (csvOn : Bool) (i : ℤ) (q : Query) (qs : List Query)
    (oracle : List MeasureOutcome) :
    runPass csvOn i (q :: qs) oracle =
      match measureLoop oracle with
      | .exhausted => .error .oracleExhausted
      | .fail e => .error (.queryFailed q.path e)
      | .sample secs rest =>
        match runPass csvOn i qs rest with
        | .error e => .error e
        | .ok (qs', rows, oracle') =>
          .ok ({ q with seconds := q.seconds ++ [secs] } :: qs',
            (if csvOn then [⟨i, q.name, secs⟩] else []) ++ rows, oracle') := rfl

theorem measureLoop_ok (d : ℤ) (hd : 0 ≤ d) (rest : List MeasureOutcome) :
    measureLoop (.ok d :: rest) = .sample (durationSeconds d) rest := by
  show (if d < 0 then measureLoop rest else .sample (durationSeconds d) rest) = _
  rw [if_neg (not_lt.mpr hd)]

theorem runPass_ok (csvOn : Bool) (i : ℤ) (k : ℕ) :
    ∀ (qs : List Query) (pre rest : List MeasureOutcome),
      pre.length = qs.length →
      (∀ o ∈ pre, ∃ d : ℤ, 0 ≤ d ∧ o = .ok d) →
      (∀ q ∈ qs, q.seconds.length = k) →
      ∃ qs' rows,
        runPass csvOn i qs (pre ++ rest) = .ok (qs', rows, rest) ∧
        qs'.length = qs.length ∧
        (∀ q ∈ qs', q.seconds.length = k + 1) ∧
        (∀ r ∈ rows, r.iteration = i) ∧
        (csvOn = true → rows.map CSVRow.query = qs.map Query.name) := by
  intro qs
  induction qs with
  | nil =>
    intro pre rest hlen hok hk
    have hpre : pre = [] := List.eq_nil_of_length_eq_zero (by simpa using hlen)
    subst hpre
    exact ⟨[], [], rfl, rfl, by simp, by simp, fun _ => rfl⟩
  | cons q t ih =>
    intro pre rest hlen hok hk
    cases pre with
    | nil => simp at hlen
    | cons o pre' =>
      obtain ⟨d, hd0, rfl⟩ := hok o (by simp)
      obtain ⟨t', rows', hrun, hlen', hall', hrows', hmap'⟩ :=
        ih pre' rest (by simpa using hlen)
          (fun o ho => hok o (by simp [ho]))
          (fun p hp => hk p (by simp [hp]))
      have hm : measureLoop ((MeasureOutcome.ok d :: pre') ++ rest) =
          .sample (durationSeconds d) (pre' ++ rest) := by
        rw [List.cons_append]
        exact measureLoop_ok d hd0 (pre' ++ rest)
      refine ⟨{ q with seconds := q.seconds ++ [durationSeconds d] } :: t',
        (if csvOn then [⟨i, q.name, durationSeconds d⟩] else []) ++ rows',
        ?_, by simp [hlen'], ?_, ?_, ?_⟩
      · simp only [runPass_cons, hm, hrun]
      · intro p hp
        rcases List.mem_cons.mp hp with rfl | hp'
        · simp only [List.length_append, List.length_cons, List.length_nil]
          rw [hk q (by simp)]
        · exact hall' p hp'
      · intro r hr
        rcases List.mem_append.mp hr with hr1 | hr2
        · cases hc : csvOn
          · rw [hc] at hr1
            simp at hr1
          · rw [hc] at hr1
            simp at hr1
            rw [hr1]
        · exact hrows' r hr2
      · intro hc
        subst hc
        simp only [if_pos rfl, List.map_append, List.map_cons, List.map_nil,
          List.singleton_append, hmap' rfl]
        rfl

theorem runLoop_succ (csvOn : Bool) (iterationsF : ℤ) (fuel : ℕ) (i : ℤ)
    (qs : List Query) (events : List LoopEvent) (oracle : List MeasureOutcome)
    (csv : List CSVRow) :
    runLoop csvOn iterationsF (fuel + 1) i qs events oracle csv =
      match runPass csvOn i qs oracle with
      | .error e => .failed e
      | .ok (qs', rows, oracle') =>
        if i ≥ iterationsF ∧ iterationsF > 0 then
          .finished (.iterationsDone i) ⟨qs', csv ++ rows⟩
        else
          match events with
          | [] => runLoop csvOn iterationsF fuel (i + 1) qs' [] oracle' (csv ++ rows)
          | .tick :: evs =>
            match benchUpdate qs' with
            | .error e => .failed (.statsFailed e)
            | .ok qs'' =>
              runLoop csvOn iterationsF fuel (i + 1) qs'' evs oracle' (csv ++ rows)
          | .signal :: _ => .finished .interrupted ⟨qs', csv ++ rows⟩
          | .timer :: _ => .finished .timeExpired ⟨qs', csv ++ rows⟩
          | .defaultCase :: evs =>
            runLoop csvOn iterationsF fuel (i + 1) qs' evs oracle' (csv ++ rows) := rfl

theorem runLoop_cap (csvOn : Bool) (n : ℤ) (hn : 0 < n) :
    ∀ (fuel : ℕ) (i : ℤ) (qs : List Query) (events : List LoopEvent)
      (oracle : List MeasureOutcome) (csv : List CSVRow),
      1 ≤ i → i ≤ n → (n - i).toNat < fuel →
      (∀ q ∈ qs, q.seconds.length = (i - 1).toNat) →
      (∀ e ∈ events, e ≠ .signal ∧ e ≠ .timer) →
      (∀ o ∈ oracle, ∃ d : ℤ, 0 ≤ d ∧ o = .ok d) →
      (n - i + 1).toNat * qs.length ≤ oracle.length →
      ∃ s : RunState,
        runLoop csvOn n fuel i qs events oracle csv =
          .finished (.iterationsDone n) s ∧
        s.queries.length = qs.length ∧
        ∀ q ∈ s.queries, q.seconds.length = n.toNat := by
  intro fuel
  induction fuel with
  | zero =>
    intro i qs events oracle csv hi1 hi2 hf
    omega
  | succ f ih =>
    intro i qs events oracle csv hi1 hi2 hf hk hev hor hbudget
    have hsplit : oracle.take qs.length ++ oracle.drop qs.length = oracle :=
      List.take_append_drop _ _
    have holen : qs.length ≤ oracle.length := by
      have h1 : 1 ≤ (n - i + 1).toNat := by omega
      calc qs.length = 1 * qs.length := (one_mul _).symm
        _ ≤ (n - i + 1).toNat * qs.length := Nat.mul_le_mul_right _ h1
        _ ≤ oracle.length := hbudget
    have hprelen : (oracle.take qs.length).length = qs.length := by
      rw [List.length_take]
      omega
    obtain ⟨qs', rows, hrun, hlen', hall', _, _⟩ :=
      runPass_ok csvOn i ((i - 1).toNat) qs (oracle.take qs.length)
        (oracle.drop qs.length) hprelen
        (fun o ho => hor o (List.take_subset _ _ ho))
        hk
    rw [hsplit] at hrun
    have hall1 : ∀ q ∈ qs', q.seconds.length = i.toNat := by
      intro q hq
      rw [hall' q hq]
      omega
    by_cases hcap : i ≥ n ∧ n > 0
    · have hieq : i = n := by omega
      refine ⟨⟨qs', csv ++ rows⟩, ?_, hlen', ?_⟩
      · rw [runLoop_succ]
        simp only [hrun]
        rw [if_pos hcap, hieq]
      · intro q hq
        have := hall1 q hq
        omega
    · have hlt : i < n := by
        rcases not_and_or.mp hcap with h | h
        · omega
        · omega
      have hrestlen : (oracle.drop qs.length).length = oracle.length - qs.length := by
        rw [List.length_drop]
      have hbudget' : (n - (i + 1) + 1).toNat * qs'.length ≤
          (oracle.drop qs.length).length := by
        have e1 : (n - i + 1).toNat = (n - (i + 1) + 1).toNat + 1 := by omega
        rw [e1, Nat.succ_mul] at hbudget
        rw [hrestlen, hlen']
        omega
      have hor' : ∀ o ∈ oracle.drop qs.length, ∃ d : ℤ, 0 ≤ d ∧ o = .ok d :=
        fun o ho => hor o (List.drop_subset _ _ ho)
      have hk' : ∀ q ∈ qs', q.seconds.length = ((i + 1) - 1).toNat := by
        have e2 : ((i + 1) - 1).toNat = i.toNat := by omega
        rw [e2]
        exact hall1
      have hf' : (n - (i + 1)).toNat < f := by omega
      cases events with
      | nil =>
        obtain ⟨s, hs, hsl, hsa⟩ := ih (i + 1) qs' [] (oracle.drop qs.length)
          (csv ++ rows) (by omega) (by omega) hf' hk' (by simp) hor' hbudget'
        refine ⟨s, ?_, by rw [hsl, hlen'], hsa⟩
        rw [runLoop_succ]
        simp only [hrun]
        rw [if_neg hcap]
        exact hs
      | cons ev evs =>
        have hev' : ∀ e ∈ evs, e ≠ .signal ∧ e ≠ .timer :=
          fun e he => hev e (by simp [he])
        have hevh := hev ev (by simp)
        cases ev with
        | signal => exact absurd rfl hevh.1
        | timer => exact absurd rfl hevh.2
        | defaultCase =>
          obtain ⟨s, hs, hsl, hsa⟩ := ih (i + 1) qs' evs (oracle.drop qs.length)
            (csv ++ rows) (by omega) (by omega) hf' hk' hev' hor' hbudget'
          refine ⟨s, ?_, by rw [hsl, hlen'], hsa⟩
          rw [runLoop_succ]
          simp only [hrun]
          rw [if_neg hcap]
          exact hs
        | tick =>
          have hkne : i.toNat ≠ 0 := by omega
          obtain ⟨qs'', hupd, hlen'', hall''⟩ :=
            benchUpdate_ok qs' i.toNat hkne hall1
          have hk'' : ∀ q ∈ qs'', q.seconds.length = ((i + 1) - 1).toNat := by
            have e2 : ((i + 1) - 1).toNat = i.toNat := by omega
            rw [e2]
            exact hall''
          obtain ⟨s, hs, hsl, hsa⟩ := ih (i + 1) qs'' evs (oracle.drop qs.length)
            (csv ++ rows) (by omega) (by omega) hf' hk'' hev' hor'
            (by rw [hlen'']; exact hbudget')
          refine ⟨s, ?_, by rw [hsl, hlen'', hlen'], hsa⟩
          rw [runLoop_succ]
          simp only [hrun]
          rw [if_neg hcap]
          simp only [hupd]
          exact hs

/-- C5: with a positive iteration cap `n`, enough fuel, an oracle that
always yields valid non-negative durations, and no interrupt or timer
firing, the loop finishes with the iteration-cap exit reason after exactly
`n` full passes: every query ends with exactly `n` recorded samples, and
termination is only ever checked at a pass boundary (each step of the
model is one whole pass). -/
theorem run_stops_after_cap (csvOn : Bool) (n : ℤ) (fuel : ℕ)
    (qs : List Query) (events : List LoopEvent) (oracle : List MeasureOutcome)
    (hn : 0 < n) (hfuel : n.toNat ≤ fuel)
    (hq0 : ∀ q ∈ qs, q.seconds = [])
    (hev : ∀ e ∈ events, e ≠ .signal ∧ e ≠ .timer)
    (hor : ∀ o ∈ oracle, ∃ d : ℤ, 0 ≤ d ∧ o = .ok d)
    (hlen : n.toNat * qs.length ≤ oracle.length) :
    ∃ s : RunState,
      runBench csvOn n fuel qs events oracle =
        .finished (.iterationsDone n) s ∧
      s.queries.length = qs.length ∧
      ∀ q ∈ s.queries, q.seconds.length = n.toNat := by
  have hbudget : (n - 1 + 1).toNat * qs.length ≤ oracle.length := by
    have : (n - 1 + 1).toNat = n.toNat := by omega
    rw [this]
    exact hlen
  obtain ⟨s, hs, hsl, hsa⟩ := runLoop_cap csvOn n hn fuel 1 qs events oracle []
    (le_refl 1) hn (by omega)
    (fun q hq => by rw [hq0 q hq]; rfl)
    hev hor hbudget
  have hkne : n.toNat ≠ 0 := by omega
  obtain ⟨qs'', hupd, hlen'', hall''⟩ := benchUpdate_ok s.queries n.toNat hkne hsa
  refine ⟨⟨qs'', s.csv⟩, ?_, by rw [hlen'', hsl], hall''⟩
  rw [runBench, hs]
  simp only [hupd]

theorem run_stops_after_cap_witness :
    ((0 : ℤ) < 2 ∧ (2 : ℤ).toNat ≤ 2 ∧
     (∀ q ∈ [({ name := "g", path := "g.sql" } : Query)], q.seconds = []) ∧
     (∀ e ∈ ([] : List LoopEvent), e ≠ .signal ∧ e ≠ .timer) ∧
     (∀ o ∈ ([.ok 5, .ok 7] : List MeasureOutcome),
        ∃ d : ℤ, 0 ≤ d ∧ o = .ok d) ∧
     (2 : ℤ).toNat * [({ name := "g", path := "g.sql" } : Query)].length ≤
       ([.ok 5, .ok 7] : List MeasureOutcome).length) ∧
    ∃ s : RunState,
      runBench false 2 2 [{ name := "g", path := "g.sql" }] [] [.ok 5, .ok 7] =
        .finished (.iterationsDone 2) s ∧
      s.queries.length = [({ name := "g", path := "g.sql" } : Query)].length ∧
      ∀ q ∈ s.queries, q.seconds.length = (2 : ℤ).toNat := by
  have hor : ∀ o ∈ ([.ok 5, .ok 7] : List MeasureOutcome),
      ∃ d : ℤ, 0 ≤ d ∧ o = .ok d := by
    intro o ho
    rcases List.mem_cons.mp ho with rfl | ho'
    · exact ⟨5, by norm_num, rfl⟩
    · rcases List.mem_cons.mp ho' with rfl | ho''
      · exact ⟨7, by norm_num, rfl⟩
      · simp at ho''
  refine ⟨⟨by norm_num, by norm_num, ?_, ?_, hor, by norm_num⟩, ?_⟩
  · intro q hq
    rw [List.mem_singleton] at hq
    rw [hq]
  · intro e he
    simp at he
  · exact run_stops_after_cap false 2 2 [{ name := "g", path := "g.sql" }] []
      [.ok 5, .ok 7] (by norm_num) (by norm_num)
      (fun q hq => by rw [List.mem_singleton] at hq; rw [hq])
      (fun e he => by simp at he) hor (by norm_num)

/-- C2 (counterexample): two queries loaded in the order [a, b] with a the
slower one; a render tick after pass 1 re-sorts the benchmark's query list
to [b, a], and pass 2 measures — and writes CSV rows — in the order b, a.
The display re-sort does change the measurement order, and iteration 2's
CSV rows are not in definition order. -/
theorem resort_changes_measurement_order :
    (match runBench true 2 2
        [{ path := "a.sql", name := "a" }, { path := "b.sql", name := "b" }]
        [.tick] [.ok 2000000, .ok 1000000, .ok 1000000, .ok 2000000] with
      | .finished _ s => (s.csv.filter (fun r => r.iteration = 2)).map CSVRow.query
      | _ => []) = ["b", "a"] ∧ (["b", "a"] : List String) ≠ ["a", "b"] := by
  constructor
  · decide
  · decide

theorem runPass_order (i : ℤ) :
    ∀ (qs : List Query) (pre rest : List MeasureOutcome),
      pre.length = qs.length →
      (∀ o ∈ pre, ∃ d : ℤ, 0 ≤ d ∧ o = .ok d) →
      ∃ qs' rows, runPass true i qs (pre ++ rest) = .ok (qs', rows, rest) ∧
        rows.map CSVRow.query = qs.map Query.name := by
  intro qs
  induction qs with
  | nil =>
    intro pre rest hlen hok
    have hpre : pre = [] := List.eq_nil_of_length_eq_zero (by simpa using hlen)
    subst hpre
    exact ⟨[], [], rfl, rfl⟩
  | cons q t ih =>
    intro pre rest hlen hok
    cases pre with
    | nil => simp at hlen
    | cons o pre' =>
      obtain ⟨d, hd0, rfl⟩ := hok o (by simp)
      obtain ⟨t', rows', hrun, hmap'⟩ := ih pre' rest (by simpa using hlen)
        (fun o ho => hok o (by simp [ho]))
      have hm : measureLoop ((MeasureOutcome.ok d :: pre') ++ rest) =
          .sample (durationSeconds d) (pre' ++ rest) := by
        rw [List.cons_append]
        exact measureLoop_ok d hd0 (pre' ++ rest)
      refine ⟨{ q with seconds := q.seconds ++ [durationSeconds d] } :: t',
        (⟨i, q.name, durationSeconds d⟩ :: rows' : List CSVRow), ?_, ?_⟩
      · simp only [runPass_cons, hm, hrun]
        rfl
      · simp only [List.map_cons, hmap']

/-- C2 (amended): within one pass, queries are measured — and CSV rows
written — in the order of the benchmark's CURRENT query list; each stats
recompute (`Benchmark.Update`) re-sorts that same list by ascending mean,
and later passes iterate the re-sorted list, so after the first recompute
the measurement and CSV order follows the sorted display order, not the
load-time definition order. -/
theorem pass_order_follows_current_list :
    (∀ (i : ℤ) (qs : List Query) (pre rest : List MeasureOutcome),
      pre.length = qs.length →
      (∀ o ∈ pre, ∃ d : ℤ, 0 ≤ d ∧ o = .ok d) →
      ∃ qs' rows, runPass true i qs (pre ++ rest) = .ok (qs', rows, rest) ∧
        rows.map CSVRow.query = qs.map Query.name) ∧
    (∀ qs qs' : List Query, benchUpdate qs = .ok qs' →
      List.Sorted (fun a b : Query => a.mean ≤ b.mean) qs') := by
  constructor
  · exact runPass_order
  · intro qs qs' h
    simp only [benchUpdate, bind, Except.bind] at h
    cases h1 : qs.mapM updateStats <;> rw [h1] at h
    · cases h
    · cases h
      haveI : IsTotal Query (fun a b : Query => a.mean ≤ b.mean) :=
        ⟨fun a b => le_total a.mean b.mean⟩
      haveI : IsTrans Query (fun a b : Query => a.mean ≤ b.mean) :=
        ⟨fun _ _ _ hab hbc => le_trans hab hbc⟩
      exact List.sorted_insertionSort _ _

theorem pass_order_follows_current_list_witness :
    (([.ok 3, .ok 4] : List MeasureOutcome).length =
      ([{ name := "a" }, { name := "b" }] : List Query).length) ∧
    ∃ qs' rows,
      runPass true 1 [{ name := "a" }, { name := "b" }] ([.ok 3, .ok 4] ++ []) =
        .ok (qs', rows, []) ∧
      rows.map CSVRow.query =
        ([{ name := "a" }, { name := "b" }] : List Query).map Query.name := by
  have hok : ∀ o ∈ ([.ok 3, .ok 4] : List MeasureOutcome),
      ∃ d : ℤ, 0 ≤ d ∧ o = .ok d := by
    intro o ho
    rcases List.mem_cons.mp ho with rfl | ho'
    · exact ⟨3, by norm_num, rfl⟩
    · rcases List.mem_cons.mp ho' with rfl | ho''
      · exact ⟨4, by norm_num, rfl⟩
      · simp at ho''
  exact ⟨rfl, pass_order_follows_current_list.1 1 _ [.ok 3, .ok 4] [] rfl hok⟩

/-! ### Claim theorems: renderer -/

theorem string_append_empty (s : String) : s ++ "" = s := by
  cases s with
  | mk data =>
    show String.mk (data ++ []) = String.mk data
    rw [List.append_nil]

theorem renderCols_cons (baseline : List Query) (i : ℕ) (bf0 : Option (List ℚ))
    (q : Query) (qs : List Query) :
    renderCols baseline i bf0 (q :: qs) =
      (let fields := tableFields q
       let bq : Option Query :=
         if baseline.length > 0 then baselineLookup baseline q.name else none
       if baseline.length > 0 ∧ bq = none then none
       else
         let bf : List ℚ :=
           if baseline.length > 0 then tableFields (bq.getD default)
           else bf0.getD fields
         let nCell := natToStr q.seconds.length ++
           (match bq with
            | some b => " (" ++
                fmt2Str ((q.seconds.length : ℚ) / (b.seconds.length : ℚ)) ++ "x)"
            | none => "")
         let statCells := (fields.zip bf).map (fun fv =>
           fmt2Str fv.1 ++
             (if 0 < i ∨ bq.isSome then " (" ++ fmt2Str (fv.1 / fv.2) ++ "x)"
              else ""))
         match renderCols baseline (i + 1) (some bf) qs with
         | none => none
         | some rest =>
           some (List.zipWith (fun c cells => c :: cells) (nCell :: statCells)
             rest)) := rfl

/-- Modelled from the spec: the columns of the no-baseline table after the
reference column — one column per later query, an unannotated sample
count, and each statistic (milliseconds) annotated with the ratio of its
value to the reference value. -/
def specRatioCols (bf : List ℚ) : List Query → List (List String)
  | [] => [[], [], [], [], [], [], [], []]
  | q :: qs =>
    List.zipWith (fun c cells => c :: cells)
      (natToStr q.seconds.length ::
        ((tableFields q).zip bf).map (fun fv =>
          fmt2Str fv.1 ++ (" (" ++ fmt2Str (fv.1 / fv.2) ++ "x)")))
      (specRatioCols bf qs)

/-- Modelled from the spec: the no-baseline table — rows n, min, max,
mean, stddev, median, p90, p95, first query's statistics bare, and every
later query's statistics annotated with the ratio against the first
query.  (Without a baseline the n row carries no ratio; only the seven
millisecond-scaled statistics do.) -/
def specNoBaselineTable (q0 : Query) (qs : List Query) : List (List String) :=
  List.zipWith (fun label cells => label :: cells) statLabels
    (List.zipWith (fun c cells => c :: cells)
      (natToStr q0.seconds.length :: (tableFields q0).map fmt2Str)
      (specRatioCols (tableFields q0) qs))

theorem zip_self_map (l : List ℚ) (f : ℚ × ℚ → String) :
    (l.zip l).map f = l.map (fun x => f (x, x)) := by
  induction l with
  | nil => rfl
  | cons x t ih =>
    simp only [List.zip_cons_cons, List.map_cons, ih]

theorem renderCols_ratio (bfv : List ℚ) :
    ∀ (qs : List Query) (i : ℕ), 0 < i →
      renderCols [] i (some bfv) qs = some (specRatioCols bfv qs) := by
  intro qs
  induction qs with
  | nil => intro i hi; rfl
  | cons q t ih =>
    intro i hi
    rw [renderCols_cons]
    have hif : (fun fv : ℚ × ℚ => fmt2Str fv.1 ++
        (if 0 < i ∨ ((none : Option Query).isSome = true) then
          " (" ++ fmt2Str (fv.1 / fv.2) ++ "x)" else "")) =
        (fun fv : ℚ × ℚ =>
          fmt2Str fv.1 ++ (" (" ++ fmt2Str (fv.1 / fv.2) ++ "x)")) := by
      funext fv
      rw [if_pos (Or.inl hi)]
    show (match renderCols [] (i + 1)
        (some ((some bfv).getD (tableFields q))) t with
      | none => none
      | some rest =>
        some (List.zipWith (fun c cells => c :: cells)
          ((natToStr q.seconds.length ++ "") ::
            ((tableFields q).zip ((some bfv).getD (tableFields q))).map
              (fun fv => fmt2Str fv.1 ++
                (if 0 < i ∨ ((none : Option Query).isSome = true) then
                  " (" ++ fmt2Str (fv.1 / fv.2) ++ "x)" else "")))
          rest)) = some (specRatioCols bfv (q :: t))
    rw [show ((some bfv).getD (tableFields q)) = bfv from rfl,
      ih (i + 1) (by omega), hif, string_append_empty]
    rfl

theorem render_no_baseline_eq (q0 : Query) (qs : List Query) :
    render (q0 :: qs) [] = some (specNoBaselineTable q0 qs) := by
  rw [render, renderCols_cons]
  have hif0 : (fun fv : ℚ × ℚ => fmt2Str fv.1 ++
      (if 0 < 0 ∨ ((none : Option Query).isSome = true) then
        " (" ++ fmt2Str (fv.1 / fv.2) ++ "x)" else "")) =
      (fun fv : ℚ × ℚ => fmt2Str fv.1 ++ "") := by
    funext fv
    rw [if_neg]
    rintro (h | h)
    · exact absurd h (lt_irrefl 0)
    · simp at h
  show Option.map _ (match renderCols [] 1
      (some ((none : Option (List ℚ)).getD (tableFields q0))) qs with
    | none => none
    | some rest =>
      some (List.zipWith (fun c cells => c :: cells)
        ((natToStr q0.seconds.length ++ "") ::
          ((tableFields q0).zip
              ((none : Option (List ℚ)).getD (tableFields q0))).map
            (fun fv => fmt2Str fv.1 ++
              (if 0 < 0 ∨ ((none : Option Query).isSome = true) then
                " (" ++ fmt2Str (fv.1 / fv.2) ++ "x)" else "")))
        rest)) = some (specNoBaselineTable q0 qs)
  rw [show ((none : Option (List ℚ)).getD (tableFields q0)) = tableFields q0
      from rfl,
    renderCols_ratio (tableFields q0) qs 1 (by omega), hif0,
    string_append_empty, zip_self_map]
  have hmapf : (fun x : ℚ => fmt2Str x ++ "") = fmt2Str := by
    funext x
    rw [string_append_empty]
  rw [show ((tableFields q0).map (fun x =>
      (fun fv : ℚ × ℚ => fmt2Str fv.1 ++ "") (x, x))) =
      (tableFields q0).map (fun x => fmt2Str x ++ "") from rfl, hmapf]
  rfl

/-- The two concrete queries of the spec's renderer example: A with mean
0.0005 s and B with mean 0.002 s. -/
def exampleQueryA : Query :=
  { name := "A", seconds := [1 / 2000], min := 1 / 2000, max := 1 / 2000,
    mean := 1 / 2000, median := 1 / 2000, stdDev := 0, p90 := 1 / 2000,
    p95 := 1 / 2000 }

def exampleQueryB : Query :=
  { name := "B", seconds := [1 / 500], min := 1 / 500, max := 1 / 500,
    mean := 1 / 500, median := 1 / 500, stdDev := 0, p90 := 1 / 500,
    p95 := 1 / 500 }

/-- C9: without a baseline the rendered table equals the spec table — the
first displayed query's statistics appear bare, and every later query's
statistics are annotated with the ratio against the first query's value
(milliseconds scale); in particular for A (mean 0.0005 s) and B (mean
0.002 s) the mean row reads `0.50` and `2.00 (4.00x)`. -/
theorem render_no_baseline_spec :
    (∀ (q0 : Query) (qs : List Query),
      render (q0 :: qs) [] = some (specNoBaselineTable q0 qs)) ∧
    (render [exampleQueryA, exampleQueryB] []).map (fun rows => rows.getD 3 []) =
      some ["mean", "0.50", "2.00 (4.00x)"] := by
  refine ⟨render_no_baseline_eq, ?_⟩
  decide

theorem baselineLookup_isSome (baseline : List Query) (nm : String) :
    (baselineLookup baseline nm).isSome ↔ nm ∈ baseline.map Query.name := by
  rw [baselineLookup, List.find?_isSome]
  constructor
  · rintro ⟨q, hq, hq2⟩
    rw [List.mem_reverse] at hq
    rw [decide_eq_true_eq] at hq2
    exact List.mem_map.mpr ⟨q, hq, hq2⟩
  · intro h
    obtain ⟨q, hq, hq2⟩ := List.mem_map.mp h
    exact ⟨q, List.mem_reverse.mpr hq, by rw [decide_eq_true_eq]; exact hq2⟩

theorem renderCols_cons_baseline (baseline : List Query)
    (hblen : baseline.length > 0) (i : ℕ) (bf0 : Option (List ℚ))
    (q : Query) (qs : List Query) :
    renderCols baseline i bf0 (q :: qs) =
      match baselineLookup baseline q.name with
      | none => none
      | some b =>
        match renderCols baseline (i + 1) (some (tableFields b)) qs with
        | none => none
        | some rest =>
          some (List.zipWith (fun c cells => c :: cells)
            ((natToStr q.seconds.length ++ (" (" ++
                fmt2Str ((q.seconds.length : ℚ) / (b.seconds.length : ℚ)) ++
                "x)")) ::
              ((tableFields q).zip (tableFields b)).map (fun fv =>
                fmt2Str fv.1 ++
                  (if 0 < i ∨ ((some b : Option Query).isSome = true) then
                    " (" ++ fmt2Str (fv.1 / fv.2) ++ "x)" else ""))) rest) := by
  have hbq : (if baseline.length > 0 then baselineLookup baseline q.name
      else none) = baselineLookup baseline q.name := if_pos hblen
  simp only [renderCols_cons, hbq]
  cases hlook : baselineLookup baseline q.name with
  | none =>
    rw [if_pos ⟨hblen, rfl⟩]
  | some b =>
    rw [if_neg (by rintro ⟨_, hc⟩; cases hc)]
    rw [if_pos hblen]
    rfl

theorem renderCols_isSome (baseline : List Query) (hb : baseline ≠ []) :
    ∀ (queries : List Query) (i : ℕ) (bf0 : Option (List ℚ)),
      (renderCols baseline i bf0 queries).isSome = true ↔
        ∀ q ∈ queries, q.name ∈ baseline.map Query.name := by
  intro queries
  induction queries with
  | nil =>
    intro i bf0
    constructor
    · intro _ q hq
      simp at hq
    · intro _
      rfl
  | cons q t ih =>
    intro i bf0
    have hblen : baseline.length > 0 := List.length_pos.mpr hb
    rw [renderCols_cons_baseline baseline hblen i bf0 q t]
    cases hlook : baselineLookup baseline q.name with
    | none =>
      constructor
      · intro hc
        simp at hc
      · intro hall
        have := (baselineLookup_isSome baseline q.name).mpr (hall q (by simp))
        rw [hlook] at this
        simp at this
    | some b =>
      have hqmem : q.name ∈ baseline.map Query.name := by
        apply (baselineLookup_isSome baseline q.name).mp
        rw [hlook]
        rfl
      cases hrec : renderCols baseline (i + 1) (some (tableFields b)) t with
      | none =>
        have hiff := ih (i + 1) (some (tableFields b))
        rw [hrec] at hiff
        constructor
        · intro hc
          simp only [hrec] at hc
          simp at hc
        · intro hall
          have hfalse := hiff.mpr (fun p hp => hall p (by simp [hp]))
          simp at hfalse
      | some rest =>
        have hiff := ih (i + 1) (some (tableFields b))
        rw [hrec] at hiff
        constructor
        · intro _ p hp
          rcases List.mem_cons.mp hp with rfl | hp'
          · exact hqmem
          · exact (hiff.mp rfl) p hp'
        · intro _
          simp only [hrec]
          rfl

/-- C10: with a non-empty baseline the renderer unconditionally looks up
the same-named baseline query for every displayed query and reads its
statistics, so rendering succeeds exactly when every live query's name is
among the baseline names; a missing name is the modelled nil-pointer
dereference (`none`), never a fallback to the no-baseline reference
column. -/
theorem render_baseline_requires_names (queries baseline : List Query)
    (hb : baseline ≠ []) :
    (render queries baseline).isSome = true ↔
      ∀ q ∈ queries, q.name ∈ baseline.map Query.name := by
  rw [render, Option.isSome_map']
  exact renderCols_isSome baseline hb queries 0 none

theorem render_baseline_requires_names_witness :
    ([({ name := "base", seconds := [1] } : Query)] ≠ []) ∧
    ((render [{ name := "live" }] [{ name := "base", seconds := [1] }]).isSome
        = true ↔
      ∀ q ∈ [({ name := "live" } : Query)],
        q.name ∈ [({ name := "base", seconds := [1] } : Query)].map Query.name) :=
  ⟨by decide, render_baseline_requires_names _ _ (by decide)⟩
